import Mathlib

/-!
Verification development for the SQUIRREL finance engine
(`src/backend/app/routes.py`): the aggregation endpoints (`api_finance`),
the scenario projector (`api_finance_scenario_compare` and `_add_months`),
and the CSV import/export pair (`api_finance_import`, `api_finance_export`,
`api_finance_transactions`).

Modelling conventions (shallow embedding):
* Python floats are modelled as exact rationals (`ℚ`); `round(x, 2)` is
  modelled by `round2` below (round half away from zero on the exact value).
* A month key string `"YYYY-MM"` (always produced zero padded by
  `strftime('%Y-%m')` / f-strings) is modelled by the pair `Ym` of year and
  month; lexicographic comparison of the padded strings coincides with the
  lexicographic order `ymLt` / `ymLe` on the pairs.
* Python dicts keep insertion order; they are modelled by association lists
  updated in place / appended at the end.
* CSV text is modelled at the row level (a list of rows, each a list of
  string fields); the `csv` module's serialization layer is the embedding
  boundary.  Field-level string processing (date parsing, `float()`,
  `strip()`, `lower()`, substring tests) is modelled on `List Char`.
-/

attribute [local semireducible] Rat.mul Rat.add Rat.sub Rat.inv

/-- Model of Python `round(x, 2)`: round the exact rational to two decimal
places. -/
def round2 (x : ℚ) : ℚ := (round (x * 100) : ℚ) / 100

/-! ### Month keys -/

/-- A `"YYYY-MM"` month key, as the pair of its numeric components. -/
structure Ym where
  y : ℕ
  m : ℕ
deriving DecidableEq, Repr

/-- Strict lexicographic order on month keys; for zero-padded `"YYYY-MM"`
strings this is exactly the Python string `<` used in the source. -/
def ymLt (a b : Ym) : Prop := a.y < b.y ∨ (a.y = b.y ∧ a.m < b.m)

/-- Lexicographic order on month keys; for zero-padded `"YYYY-MM"` strings
this is exactly the Python string `<=` / `>=` used in the source. -/
def ymLe (a b : Ym) : Prop := a.y < b.y ∨ (a.y = b.y ∧ a.m ≤ b.m)

instance : DecidableRel ymLt := fun a b => by unfold ymLt; infer_instance

instance : DecidableRel ymLe := fun a b => by unfold ymLe; infer_instance

instance : IsTotal Ym ymLe := ⟨fun a b => by unfold ymLe; omega⟩

instance : IsTrans Ym ymLe := ⟨fun a b c h1 h2 => by unfold ymLe at *; omega⟩

instance : IsTrans Ym ymLt := ⟨fun a b c h1 h2 => by unfold ymLt at *; omega⟩

/-- Model of `_add_months` (routes.py lines 655-662): exact calendar-month
arithmetic on the `"YYYY-MM"` representation. -/
def addMonths (a : Ym) (k : ℕ) : Ym :=
  let total := a.y * 12 + (a.m - 1) + k
  ⟨total / 12, total % 12 + 1⟩

/-- One step of the backward month walk of `api_finance` (lines 386-391):
`m -= 1; if m == 0: m = 12; y -= 1`. -/
def prevYm (a : Ym) : Ym :=
  if a.m - 1 = 0 then ⟨a.y - 1, 12⟩ else ⟨a.y, a.m - 1⟩

/-- One step of the forward month walk of `api_finance_scenario_compare`
(lines 618-623): `m += 1; if m == 13: m = 1; y += 1`. -/
def nextYm (a : Ym) : Ym :=
  if a.m + 1 = 13 then ⟨a.y + 1, 1⟩ else ⟨a.y, a.m + 1⟩

/-- The backward month walk of `api_finance` before the final `reversed`:
collect `k` keys starting at `a`, stepping with `prevYm`. -/
def genBackAux : Ym → ℕ → List Ym
  | _, 0 => []
  | a, k + 1 => a :: genBackAux (prevYm a) k

/-- Month keys for the monthly rollup (lines 383-392): walk backward from
the as-of month, then reverse to ascending order. -/
def genMonthsBack (a : Ym) (k : ℕ) : List Ym := (genBackAux a k).reverse

/-- Forward month walk of the scenario projector (lines 615-623): `k`
ascending keys starting at the current month. -/
def genMonthsFwd : Ym → ℕ → List Ym
  | _, 0 => []
  | a, k + 1 => a :: genMonthsFwd (nextYm a) k

/-- Absolute month index of a key; on valid keys (`1 ≤ m ≤ 12`) it orders
exactly like `ymLt`. -/
def ymIdx (a : Ym) : ℕ := a.y * 12 + (a.m - 1)

/-! ### Character-level string helpers (Python `str` operations) -/

/-- Python whitespace test used by `str.strip()` (the characters relevant to
this code base). -/
def isWsChar (c : Char) : Bool := c = ' ' || c = '\t' || c = '\n' || c = '\r'

/-- Model of Python `str.strip()` on the character list. -/
def trimChars (cs : List Char) : List Char :=
  ((cs.dropWhile isWsChar).reverse.dropWhile isWsChar).reverse

/-- Model of Python `str.lower()` (per-character lowering). -/
def lowerChars (cs : List Char) : List Char := cs.map Char.toLower

/-- Model of `str.replace(',', '')` used to strip thousands separators. -/
def stripCommas (cs : List Char) : List Char := cs.filter (fun c => c ≠ ',')

/-- Model of Python `str.split`-like splitting on a single separator
character, as performed implicitly by `strptime` format matching. -/
def splitOnChar (sep : Char) : List Char → List (List Char)
  | [] => [[]]
  | c :: rest =>
    if c = sep then [] :: splitOnChar sep rest
    else
      match splitOnChar sep rest with
      | [] => [[c]]
      | p :: ps => (c :: p) :: ps

/-- Does the haystack start with the needle? (helper for substring tests) -/
def leadsWith : List Char → List Char → Bool
  | [], _ => true
  | _ :: _, [] => false
  | a :: as, b :: bs => a = b && leadsWith as bs

/-- Model of Python `needle in haystack` substring containment. -/
def containsSub (nd : List Char) : List Char → Bool
  | [] => nd.isEmpty
  | c :: rest => leadsWith nd (c :: rest) || containsSub nd rest

/-- The digit character for a value below ten. -/
def digitChar : ℕ → Char
  | 0 => '0' | 1 => '1' | 2 => '2' | 3 => '3' | 4 => '4'
  | 5 => '5' | 6 => '6' | 7 => '7' | 8 => '8' | _ => '9'

/-- Decimal digit string of a natural number (no padding), as produced by
Python string formatting of integers. -/
def natDigits (n : ℕ) : List Char :=
  if h : n < 10 then [digitChar n]
  else natDigits (n / 10) ++ [digitChar (n % 10)]
termination_by n
decreasing_by exact Nat.div_lt_self (by omega) (by omega)

/-- Numeric value of a digit character. -/
def digitVal (c : Char) : ℕ := c.toNat - 48

/-- Value of a decimal digit string (leading zeros allowed). -/
def digitsVal (cs : List Char) : ℕ := cs.foldl (fun a c => a * 10 + digitVal c) 0

/-- Zero-pad to two digits: Python `f"{n:02d}"`. -/
def pad2 (n : ℕ) : List Char := if n < 10 then '0' :: natDigits n else natDigits n

/-- Zero-pad to four digits: Python `f"{n:04d}"`. -/
def pad4 (n : ℕ) : List Char :=
  if n < 10 then '0' :: '0' :: '0' :: natDigits n
  else if n < 100 then '0' :: '0' :: natDigits n
  else if n < 1000 then '0' :: natDigits n
  else natDigits n

/-! ### Dates and numeric parsing (`datetime.strptime`, `float`, formatting) -/

/-- The ten decimal digit characters. -/
def digitList : List Char := ['0', '1', '2', '3', '4', '5', '6', '7', '8', '9']

/-- A calendar date `(year, month, day)` as held by a Python `datetime.date`. -/
structure DateYmd where
  y : ℕ
  m : ℕ
  d : ℕ
deriving DecidableEq, Repr

/-- Gregorian leap-year rule, as enforced by `datetime.date`. -/
def isLeap (y : ℕ) : Bool := y % 4 == 0 && (y % 100 != 0 || y % 400 == 0)

/-- Days in a month, as enforced by `datetime.date`. -/
def daysInMonth (y m : ℕ) : ℕ :=
  if m = 1 ∨ m = 3 ∨ m = 5 ∨ m = 7 ∨ m = 8 ∨ m = 10 ∨ m = 12 then 31
  else if m = 4 ∨ m = 6 ∨ m = 9 ∨ m = 11 then 30
  else if isLeap y then 29 else 28

/-- Validity of a date triple under `datetime.date`'s constructor bounds
(`MINYEAR = 1`, `MAXYEAR = 9999`). -/
def validDate (dt : DateYmd) : Bool :=
  decide (1 ≤ dt.y ∧ dt.y ≤ 9999 ∧ 1 ≤ dt.m ∧ dt.m ≤ 12 ∧ 1 ≤ dt.d ∧
    dt.d ≤ daysInMonth dt.y dt.m)

/-- Build a date, failing (as `datetime.date` raises) when out of range. -/
def mkValidDate (y m d : ℕ) : Option DateYmd :=
  if validDate ⟨y, m, d⟩ then some ⟨y, m, d⟩ else none

/-- Model of `datetime.strptime(s, '%Y-%m-%d')` on the character list:
dash-separated digit groups of the format's maximal widths, then the date
validity check. -/
def parseYmdChars (cs : List Char) : Option DateYmd :=
  match splitOnChar '-' cs with
  | [ys, ms, ds] =>
    if ys ≠ [] ∧ ys.length ≤ 4 ∧ (∀ c ∈ ys, c.isDigit = true) ∧
        ms ≠ [] ∧ ms.length ≤ 2 ∧ (∀ c ∈ ms, c.isDigit = true) ∧
        ds ≠ [] ∧ ds.length ≤ 2 ∧ (∀ c ∈ ds, c.isDigit = true) then
      mkValidDate (digitsVal ys) (digitsVal ms) (digitsVal ds)
    else none
  | _ => none

/-- Model of `datetime.strptime(s, '%m/%d/%Y')` on the character list. -/
def parseMdyChars (cs : List Char) : Option DateYmd :=
  match splitOnChar '/' cs with
  | [ms, ds, ys] =>
    if ms ≠ [] ∧ ms.length ≤ 2 ∧ (∀ c ∈ ms, c.isDigit = true) ∧
        ds ≠ [] ∧ ds.length ≤ 2 ∧ (∀ c ∈ ds, c.isDigit = true) ∧
        ys ≠ [] ∧ ys.length ≤ 4 ∧ (∀ c ∈ ys, c.isDigit = true) then
      mkValidDate (digitsVal ys) (digitsVal ms) (digitsVal ds)
    else none
  | _ => none

/-- Model of `datetime.strptime(s, '%d/%m/%Y')` on the character list. -/
def parseDmyChars (cs : List Char) : Option DateYmd :=
  match splitOnChar '/' cs with
  | [ds, ms, ys] =>
    if ds ≠ [] ∧ ds.length ≤ 2 ∧ (∀ c ∈ ds, c.isDigit = true) ∧
        ms ≠ [] ∧ ms.length ≤ 2 ∧ (∀ c ∈ ms, c.isDigit = true) ∧
        ys ≠ [] ∧ ys.length ≤ 4 ∧ (∀ c ∈ ys, c.isDigit = true) then
      mkValidDate (digitsVal ys) (digitsVal ms) (digitsVal ds)
    else none
  | _ => none

/-- Model of the importer's `parse_date` (routes.py lines 722-728): try the
formats `%Y-%m-%d`, `%m/%d/%Y`, `%d/%m/%Y` in order on the stripped string,
returning the first success; `none` models the final `raise`. -/
def parse_date (s : String) : Option DateYmd :=
  let cs := trimChars s.toList
  match parseYmdChars cs with
  | some dt => some dt
  | none =>
    match parseMdyChars cs with
    | some dt => some dt
    | none => parseDmyChars cs

/-- Characters of `date.isoformat()`: `"YYYY-MM-DD"`, zero padded. -/
def fmtDateChars (dt : DateYmd) : List Char :=
  pad4 dt.y ++ '-' :: (pad2 dt.m ++ '-' :: pad2 dt.d)

/-- Sign handling of Python `float()` on a trimmed literal. -/
def splitSign (cs : List Char) : ℚ × List Char :=
  match cs with
  | [] => (1, [])
  | c :: rest => if c = '-' then (-1, rest) else if c = '+' then (1, rest) else (1, c :: rest)

/-- Model of Python `float()` on the stripped character list, restricted to
the plain decimal syntax `[+-]digits[.digits]` exercised by this code base
(exponent and inf/nan literals are outside the model). -/
def parseFloatChars (cs : List Char) : Option ℚ :=
  match splitOnChar '.' (splitSign cs).2 with
  | [ip] =>
    if ip ≠ [] ∧ (∀ c ∈ ip, c.isDigit = true) then some ((splitSign cs).1 * digitsVal ip)
    else none
  | [ip, fp] =>
    if ip ++ fp ≠ [] ∧ (∀ c ∈ ip ++ fp, c.isDigit = true) then
      some ((splitSign cs).1 * ((digitsVal ip : ℚ) + (digitsVal fp : ℚ) / 10 ^ fp.length))
    else none
  | _ => none

/-- Model of Python `float(s)`: strip whitespace, then parse. -/
def pyFloat (s : String) : Option ℚ := parseFloatChars (trimChars s.toList)

/-- Characters of the export's `f"{amount:.2f}"` formatting: the stored
float rounded to two decimals with exactly two fractional digits. -/
def fmtAmountChars (a : ℚ) : List Char :=
  let n : ℤ := round (a * 100)
  let q : ℕ := n.natAbs
  (if n < 0 then ['-'] else []) ++ natDigits (q / 100) ++ '.' :: pad2 (q % 100)

/-! ### Transactions and the aggregator (`api_finance`, lines 349-442) -/

/-- A transaction's `type` column: the store only ever holds `'income'` or
`'expense'` (enforced by the creation endpoint and the importer). -/
inductive Kind
  | income
  | expense
deriving DecidableEq, Repr

/-- A stored transaction, as read back from the store. -/
structure TxRec where
  date : DateYmd
  amount : ℚ
  type : Kind
  category : Option String
  notes : Option String
deriving DecidableEq, Repr

/-- Model of Python `abs()` on a float, in executable form. -/
def pyAbs (x : ℚ) : ℚ := if x < 0 then -x else x

/-- Model of `signed_amount` (lines 365-366):
`tx.amount if tx.type == 'income' else -abs(tx.amount)`. -/
def signed_amount (tx : TxRec) : ℚ :=
  if tx.type = Kind.income then tx.amount else -(pyAbs tx.amount)

/-- Month key of a transaction: `tx.date.strftime('%Y-%m')`. -/
def monthOf (tx : TxRec) : Ym := ⟨tx.date.y, tx.date.m⟩

/-- Model of the balance (line 369): sum of signed amounts. -/
def balance (txs : List TxRec) : ℚ := (txs.map signed_amount).sum

/-- Value of the `monthly_income` defaultdict at a key (lines 373-380);
months never written read as the default `0.0`. -/
def monthlyIncome (txs : List TxRec) (mm : Ym) : ℚ :=
  ((txs.filter (fun t => t.type == Kind.income && monthOf t == mm)).map (fun t => t.amount)).sum

/-- Value of the `monthly_expense` defaultdict at a key (lines 373-380); the
source files every non-income transaction here. -/
def monthlyExpense (txs : List TxRec) (mm : Ym) : ℚ :=
  ((txs.filter (fun t => !(t.type == Kind.income) && monthOf t == mm)).map (fun t => t.amount)).sum

/-- Model of the `monthly` list (lines 382-399): one
`(month, income, expense, net)` entry per generated month key. -/
def monthlyRollup (txs : List TxRec) (asOf : Ym) (k : ℕ) : List (Ym × ℚ × ℚ × ℚ) :=
  (genMonthsBack asOf k).map (fun mm =>
    (mm, round2 (monthlyIncome txs mm), round2 (monthlyExpense txs mm),
      round2 (monthlyIncome txs mm - monthlyExpense txs mm)))

/-- Category key of a transaction: `tx.category or 'Uncategorized'` (`None`
and the empty string are both falsy). -/
def catKey (tx : TxRec) : String :=
  match tx.category with
  | none => "Uncategorized"
  | some c => if c = "" then "Uncategorized" else c

/-- Update of the insertion-ordered `by_category` dict at one key: add to an
existing entry in place, or append a new entry at the end. -/
def addCat (acc : List (String × ℚ)) (key : String) (amt : ℚ) : List (String × ℚ) :=
  match acc with
  | [] => [(key, amt)]
  | (k, v) :: rest => if k = key then (k, v + amt) :: rest else (k, v) :: addCat rest key amt

/-- Model of the `by_category` defaultdict (lines 402-406) as its
insertion-ordered item list: expense transactions only. -/
def by_category (txs : List TxRec) : List (String × ℚ) :=
  txs.foldl
    (fun acc tx => if tx.type == Kind.expense then addCat acc (catKey tx) tx.amount else acc) []

/-- The sort key of line 407: `sorted(..., key=lambda x: -x[1])`, i.e.
descending by summed amount; Python's sort is stable. -/
def amtGe (a b : String × ℚ) : Prop := b.2 ≤ a.2

instance : DecidableRel amtGe := fun a b => by unfold amtGe; infer_instance

instance : IsTotal (String × ℚ) amtGe := ⟨fun a b => le_total b.2 a.2⟩

instance : IsTrans (String × ℚ) amtGe := ⟨fun _ _ _ h1 h2 => le_trans h2 h1⟩

/-- Model of `category_breakdown` (line 407): stable sort of the dict items
descending by amount, rounding displayed amounts to two decimals. -/
def category_breakdown (txs : List TxRec) : List (String × ℚ) :=
  (List.insertionSort amtGe (by_category txs)).map (fun p => (p.1, round2 p.2))

/-- Value of the `month_net` defaultdict at a key (lines 410-413). -/
def month_net (txs : List TxRec) (mm : Ym) : ℚ :=
  ((txs.filter (fun t => monthOf t == mm)).map signed_amount).sum

/-- The sorted list of month keys present in the transaction set
(`sorted(month_net.keys())`, line 415). -/
def sortedMonthKeys (txs : List TxRec) : List Ym :=
  List.insertionSort ymLe ((txs.map monthOf).dedup)

/-- The cumulative loop of lines 420-422: extend the running balance by
each month's net and record the rounded value. -/
def cumLoop (txs : List TxRec) (r : ℚ) : List Ym → List (Ym × ℚ)
  | [] => []
  | mm :: rest =>
    (mm, round2 (r + month_net txs mm)) :: cumLoop txs (r + month_net txs mm) rest

/-- Model of the balance timeseries (lines 409-422): slice the last `k`
sorted month keys, seed the running balance with the sum of the nets of the
months before the slice, then accumulate. -/
def balanceTimeseries (txs : List TxRec) (k : ℕ) : List (Ym × ℚ) :=
  let ks := sortedMonthKeys txs
  let keys := ks.drop (ks.length - k)
  let prior := if keys.length = k then ks.take (ks.length - k) else []
  cumLoop txs ((prior.map (month_net txs)).sum) keys

/-- Model of the `months` query-parameter handling of `api_finance`
(lines 354-359): out-of-range and unparsable values fall back to the
default 12. -/
def months_param_clamp (p : ℤ) : ℤ := if p < 1 ∨ 60 < p then 12 else p

/-! ### Scenario projector (`api_finance_scenario_compare`, lines 593-662) -/

/-- A scenario option row (`ScenarioOption`): recurring monthly delta,
one-time delta, start month, and optional duration in months. -/
structure SOpt where
  name : String
  monthly_delta : ℚ
  one_time_delta : ℚ
  start_month : Ym
  months : Option ℕ
deriving DecidableEq, Repr

/-- One month of the per-option projection loop (lines 636-648): apply the
monthly delta while inside the duration window (`apply_monthly`), then the
one-time delta at the start month (`if mm == o.start_month and
o.one_time_delta`). -/
def optStep (o : SOpt) (cur : ℚ) (mm : Ym) : ℚ :=
  let applyMonthly : Bool :=
    match o.months with
    | none => true
    | some d => !(decide (ymLt mm o.start_month) || decide (ymLe (addMonths o.start_month d) mm))
  let cur1 := if ymLe o.start_month mm ∧ applyMonthly = true then cur + o.monthly_delta else cur
  if mm = o.start_month ∧ o.one_time_delta ≠ 0 then cur1 + o.one_time_delta else cur1

/-- Model of the per-option projection loop (lines 632-649): run `optStep`
over the horizon months, recording the rounded running value after each. -/
def optLoop (o : SOpt) (cur : ℚ) : List Ym → List (Ym × ℚ)
  | [] => []
  | mm :: rest => (mm, round2 (optStep o cur mm)) :: optLoop o (optStep o cur mm) rest

/-- Model of the compare endpoint's result (lines 614-652): the horizon
months plus the series list, the flat baseline first, then one series per
option. -/
def compareSeries (bal : ℚ) (ms : List Ym) (opts : List SOpt) :
    List Ym × List (String × List (Ym × ℚ)) :=
  (ms,
    ("Baseline", ms.map (fun mm => (mm, round2 bal))) ::
      opts.map (fun o => (o.name, optLoop o bal ms)))

/-- Model of the `n` query-parameter handling of the compare endpoint
(lines 600-605): out-of-range and unparsable values fall back to the
default 12. -/
def n_param_clamp (p : ℤ) : ℤ := if p < 1 ∨ 60 < p then 12 else p

/-! ### CSV import and export (lines 685-772) -/

/-- Resolved column indices; `none` models the sentinel `-1`. -/
structure Cols where
  dateC : Option ℕ
  amountC : Option ℕ
  debitC : Option ℕ
  creditC : Option ℕ
  typeC : Option ℕ
  catC : Option ℕ
  descC : Option ℕ
deriving DecidableEq, Repr

/-- Model of `find_col` (lines 708-712): the first alias present in the
headers wins, resolved to the index of its first occurrence. -/
def find_col (headers : List String) : List String → Option ℕ
  | [] => none
  | k :: ks =>
    match headers.findIdx? (fun h => h == k) with
    | some i => some i
    | none => find_col headers ks

/-- Header normalization of line 705: `h.strip().lower()`. -/
def headerNorm (s : String) : String := String.mk (lowerChars (trimChars s.toList))

/-- The alias tables of lines 713-719. -/
def resolveCols (headers : List String) : Cols :=
  { dateC := find_col headers ["date", "posted date", "transaction date"]
    amountC := find_col headers ["amount", "amt"]
    debitC := find_col headers ["debit", "withdrawal", "outflow"]
    creditC := find_col headers ["credit", "deposit", "inflow"]
    typeC := find_col headers ["type"]
    catC := find_col headers ["category", "cat"]
    descC := find_col headers ["description", "memo", "name", "details"] }

/-- The debit/credit fallback of lines 741-743: a missing column reads as
`0.0`, an out-of-range index models the uncaught-at-this-line `IndexError`
(row skipped), an empty cell is falsy and reads as `0.0`. -/
def fallbackAmt (c : Cols) (r : List String) : Option ℚ :=
  let deb : Option ℚ :=
    match c.debitC with
    | none => some 0
    | some i =>
      match r.get? i with
      | none => none
      | some v => if v ≠ "" then pyFloat (String.mk (stripCommas v.toList)) else some 0
  let cre : Option ℚ :=
    match c.creditC with
    | none => some 0
    | some i =>
      match r.get? i with
      | none => none
      | some v => if v ≠ "" then pyFloat (String.mk (stripCommas v.toList)) else some 0
  match deb, cre with
  | some d, some cr => some (cr - d)
  | _, _ => none

/-- Amount resolution of lines 737-743: use a non-empty explicit amount cell
(thousands separators stripped), otherwise `credit - debit`. -/
def resolveAmt (c : Cols) (r : List String) : Option ℚ :=
  match c.amountC with
  | some i =>
    match r.get? i with
    | some v => if v ≠ "" then pyFloat (String.mk (stripCommas v.toList)) else fallbackAmt c r
    | none => fallbackAmt c r
  | none => fallbackAmt c r

/-- The type-column test of line 744:
`idx_type != -1 and 'income' in str(r[idx_type]).lower()`; `none` models the
`IndexError` raised by an out-of-range unguarded `r[idx_type]`. -/
def typeIncomeFlag (c : Cols) (r : List String) : Option Bool :=
  match c.typeC with
  | none => some false
  | some i =>
    match r.get? i with
    | none => none
    | some v => some (containsSub "income".toList (lowerChars v.toList))

/-- Optional-field read of lines 745-746:
`(r[i] if i != -1 and i < len(r) else '').strip() or None`. -/
def optField (idx : Option ℕ) (r : List String) : Option String :=
  let raw :=
    match idx with
    | some i => (r.get? i).getD ""
    | none => ""
  let t := String.mk (trimChars raw.toList)
  if t = "" then none else some t

/-- One iteration of the import loop (lines 731-752): `none` models any
skipped row (missing/empty/unparseable date, amount failure, `IndexError`);
`some` is the transaction row handed to the store. -/
def processRow (c : Cols) (r : List String) : Option TxRec :=
  match c.dateC.bind (fun i => r.get? i) with
  | none => none
  | some ds =>
    if ds = "" then none
    else
      match parse_date ds with
      | none => none
      | some dt =>
        match resolveAmt c r with
        | none => none
        | some amt =>
          match typeIncomeFlag c r with
          | none => none
          | some ti =>
            some
              { date := dt
                amount := pyAbs amt
                type := if ti || decide (0 < amt) then Kind.income else Kind.expense
                category := optField c.catC r
                notes := optField c.descC r }

/-- The import loop over the data rows (lines 730-752): count the rows that
convert and collect the resulting transactions; failed rows are skipped. -/
def processRows (c : Cols) (rows : List (List String)) : ℕ × List TxRec :=
  rows.foldl
    (fun acc r =>
      match processRow c r with
      | some tx => (acc.1 + 1, acc.2 ++ [tx])
      | none => acc)
    (0, [])

/-- Model of `api_finance_import` from the parsed row list on (lines
703-754): normalize the header row, resolve columns, and run the row loop;
a header row that is entirely empty is treated as data. -/
def importCsv (rows : List (List String)) : ℕ × List TxRec :=
  match rows with
  | [] => (0, [])
  | r0 :: rest =>
    let headers := r0.map headerNorm
    let dataRows := if headers.any (fun h => h ≠ "") then rest else r0 :: rest
    processRows (resolveCols headers) dataRows

/-- The stored `type` column as text. -/
def kindStr : Kind → String
  | Kind.income => "income"
  | Kind.expense => "expense"

/-- One exported CSV record (line 767):
`[date.isoformat(), type, category or '', f"{amount:.2f}", notes or '']`. -/
def exportRow (tx : TxRec) : List String :=
  [String.mk (fmtDateChars tx.date), kindStr tx.type, tx.category.getD "",
    String.mk (fmtAmountChars tx.amount), tx.notes.getD ""]

/-- The exported CSV as its row list (lines 765-767): the fixed header row
followed by one record per transaction. -/
def exportRows (txs : List TxRec) : List (List String) :=
  ["date", "type", "category", "amount", "notes"] :: txs.map exportRow

/-! ### Single-transaction creation (`api_finance_transactions`, lines 457-477) -/

/-- The JSON payload of a POST to the transactions endpoint.  `amount`
models a numeric JSON value; `none` models an absent or non-numeric payload
(`float(...)` raising). -/
structure TxInput where
  date : Option String
  amount : Option ℚ
  type : Option String
  category : Option String
  notes : Option String

/-- Normalization `(value or '').strip() or None` applied to the optional
category / notes payload fields (lines 472-473). -/
def optStr (s : Option String) : Option String :=
  let t := String.mk (trimChars (s.getD "").toList)
  if t = "" then none else some t

/-- Model of the POST branch of `api_finance_transactions` (lines 457-477):
validate the date (`%Y-%m-%d` only), the amount, and the type, then store
the transaction with `amount = abs(amount)`.  `Except.error` carries the
400-response message. -/
def createTx (inp : TxInput) : Except String TxRec :=
  match parseYmdChars (trimChars (inp.date.getD "").toList) with
  | none => Except.error "Invalid or missing date (YYYY-MM-DD)"
  | some dt =>
    match inp.amount with
    | none => Except.error "Invalid amount"
    | some a =>
      if String.mk (lowerChars (trimChars (inp.type.getD "").toList)) = "income" ∨
          String.mk (lowerChars (trimChars (inp.type.getD "").toList)) = "expense" then
        Except.ok
          { date := dt
            amount := pyAbs a
            type :=
              if String.mk (lowerChars (trimChars (inp.type.getD "").toList)) = "income" then
                Kind.income
              else Kind.expense
            category := optStr inp.category
            notes := optStr inp.notes }
      else Except.error "type must be income or expense"

/-- The duration-window test of the claimed option semantics: inside the
window when `durationMonths` is null or the month precedes
`startMonth + durationMonths`. -/
def withinDurB (o : SOpt) (mm : Ym) : Bool :=
  match o.months with
  | none => true
  | some d => decide (ymLt mm (addMonths o.start_month d))

/-- The claimed activity condition for an option's monthly delta:
`m ≥ startMonth` and inside the duration window. -/
def activeB (o : SOpt) (mm : Ym) : Bool := decide (ymLe o.start_month mm) && withinDurB o mm

/-- The claimed per-month balance contribution of an option: the monthly
delta exactly when active, plus the one-time delta exactly at the start
month when non-zero (independently of the window). -/
def optContrib (o : SOpt) (mm : Ym) : ℚ :=
  (if activeB o mm then o.monthly_delta else 0) +
    (if mm = o.start_month ∧ o.one_time_delta ≠ 0 then o.one_time_delta else 0)

/-- Total amount recorded for a category key in a `by_category` item list. -/
def lookupAmt (l : List (String × ℚ)) (k : String) : ℚ :=
  ((l.filter (fun p => p.1 == k)).map Prod.snd).sum

/-! ### Helper lemmas -/

theorem pyAbs_eq_abs (x : ℚ) : pyAbs x = |x| := by
  unfold pyAbs
  split
  · rename_i hx
    rw [abs_of_neg hx]
  · rename_i hx
    rw [abs_of_nonneg (not_lt.mp hx)]

theorem ymLe_refl (a : Ym) : ymLe a a := Or.inr ⟨rfl, le_refl _⟩

theorem ymLe_total (a b : Ym) : ymLe a b ∨ ymLe b a := by
  unfold ymLe; omega

theorem ymLe_trans {a b c : Ym} (h1 : ymLe a b) (h2 : ymLe b c) : ymLe a c := by
  unfold ymLe at *; omega

theorem ymLt_trans {a b c : Ym} (h1 : ymLt a b) (h2 : ymLt b c) : ymLt a c := by
  unfold ymLt at *; omega

theorem ymLt_iff_le_not_le {a b : Ym} : ymLt a b ↔ ymLe a b ∧ ¬ ymLe b a := by
  unfold ymLt ymLe; omega

theorem ymLe_antisymm {a b : Ym} (h1 : ymLe a b) (h2 : ymLe b a) : a = b := by
  unfold ymLe at *
  have hy : a.y = b.y ∧ a.m = b.m := by omega
  cases a; cases b; simp_all

theorem not_ymLt_iff {a b : Ym} : ¬ ymLt a b ↔ ymLe b a := by
  unfold ymLt ymLe; omega

theorem not_ymLe_iff {a b : Ym} : ¬ ymLe a b ↔ ymLt b a := by
  unfold ymLt ymLe; omega

theorem ymLt_of_le_of_ne {a b : Ym} (h : ymLe a b) (hne : a ≠ b) : ymLt a b := by
  rcases ymLt_iff_le_not_le.mpr ⟨h, fun hba => hne (ymLe_antisymm h hba)⟩ with h'
  exact h'

theorem ymLt_iff_idx {a b : Ym} (ha : 1 ≤ a.m ∧ a.m ≤ 12) (hb : 1 ≤ b.m ∧ b.m ≤ 12) :
    ymLt a b ↔ ymIdx a < ymIdx b := by
  unfold ymLt ymIdx
  constructor
  · intro h; rcases h with h | ⟨he, hm⟩
    · have : a.y * 12 + 12 ≤ b.y * 12 := by nlinarith
      omega
    · omega
  · intro h
    rcases Nat.lt_trichotomy a.y b.y with hy | hy | hy
    · exact Or.inl hy
    · exact Or.inr ⟨hy, by omega⟩
    · exfalso
      have : b.y * 12 + 12 ≤ a.y * 12 := by nlinarith
      omega

theorem addMonths_self_zero {a : Ym} (h : 1 ≤ a.m ∧ a.m ≤ 12) : addMonths a 0 = a := by
  unfold addMonths
  have h1 : (a.y * 12 + (a.m - 1) + 0) / 12 = a.y := by omega
  have h2 : (a.y * 12 + (a.m - 1) + 0) % 12 + 1 = a.m := by omega
  cases a
  simp_all

theorem digitChar_isDigit {n : ℕ} : (digitChar n).isDigit = true := by
  unfold digitChar
  split <;> decide

theorem digitVal_digitChar {n : ℕ} (h : n < 10) : digitVal (digitChar n) = n := by
  interval_cases n <;> rfl

theorem natDigits_all_digit (n : ℕ) : ∀ c ∈ natDigits n, c.isDigit = true := by
  induction n using Nat.strong_induction_on with
  | _ n ih =>
    rw [natDigits]
    split
    · intro c hc
      simp only [List.mem_singleton] at hc
      subst hc; exact digitChar_isDigit
    · intro c hc
      rcases List.mem_append.mp hc with h | h
      · exact ih (n / 10) (Nat.div_lt_self (by omega) (by omega)) c h
      · simp only [List.mem_singleton] at h
        subst h; exact digitChar_isDigit

theorem natDigits_ne_nil (n : ℕ) : natDigits n ≠ [] := by
  rw [natDigits]
  split
  · simp
  · simp

theorem digitsVal_append_one (cs : List Char) (c : Char) :
    digitsVal (cs ++ [c]) = digitsVal cs * 10 + digitVal c := by
  unfold digitsVal
  rw [List.foldl_append]
  rfl

theorem digitsVal_natDigits (n : ℕ) : digitsVal (natDigits n) = n := by
  induction n using Nat.strong_induction_on with
  | _ n ih =>
    rw [natDigits]
    split
    · rename_i h
      show digitsVal [digitChar n] = n
      unfold digitsVal
      simp [digitVal_digitChar h]
    · rename_i h
      rw [digitsVal_append_one, ih (n / 10) (Nat.div_lt_self (by omega) (by omega)),
        digitVal_digitChar (Nat.mod_lt _ (by omega))]
      omega

theorem digitsVal_cons_zero (cs : List Char) : digitsVal ('0' :: cs) = digitsVal cs := by
  unfold digitsVal
  rfl

theorem natDigits_length_le {k n : ℕ} (h : n < 10 ^ k) (hk : 1 ≤ k) :
    (natDigits n).length ≤ k := by
  induction k generalizing n with
  | zero => omega
  | succ k ih =>
    rw [natDigits]
    split
    · show ([_]).length ≤ k + 1
      simp only [List.length_cons, List.length_nil]
      omega
    · rename_i hn
      have hk1 : 1 ≤ k := by
        by_contra hc
        have hk0 : k = 0 := by omega
        subst hk0
        norm_num at h
        omega
      have hdiv : n / 10 < 10 ^ k := by
        have h10 : (10 : ℕ) ∣ 10 ^ (k + 1) := Dvd.intro (10 ^ k) (by ring)
        have hlt := Nat.div_lt_div_of_lt_of_dvd h10 h
        have hpow : 10 ^ (k + 1) / 10 = 10 ^ k := by
          rw [pow_succ, Nat.mul_div_cancel _ (by omega : 0 < 10)]
        rwa [hpow] at hlt
      have := ih hdiv hk1
      simp only [List.length_append, List.length_singleton]
      omega

theorem pad2_all_digit (n : ℕ) : ∀ c ∈ pad2 n, c.isDigit = true := by
  unfold pad2
  split
  · intro c hc
    rcases List.mem_cons.mp hc with h | h
    · subst h; decide
    · exact natDigits_all_digit n c h
  · exact natDigits_all_digit n

theorem pad4_all_digit (n : ℕ) : ∀ c ∈ pad4 n, c.isDigit = true := by
  unfold pad4
  intro c hc
  split at hc <;> try (split at hc) <;> try (split at hc)
  all_goals
    first
    | (rcases List.mem_cons.mp hc with h | hc'
       · subst h; decide
       · first
         | (rcases List.mem_cons.mp hc' with h | hc''
            · subst h; decide
            · first
              | (rcases List.mem_cons.mp hc'' with h | hc3
                 · subst h; decide
                 · exact natDigits_all_digit n c hc3)
              | exact natDigits_all_digit n c hc'')
         | exact natDigits_all_digit n c hc')
    | exact natDigits_all_digit n c hc

theorem digitsVal_pad2 (n : ℕ) : digitsVal (pad2 n) = n := by
  unfold pad2
  split
  · rw [digitsVal_cons_zero, digitsVal_natDigits]
  · rw [digitsVal_natDigits]

theorem digitsVal_pad4 (n : ℕ) : digitsVal (pad4 n) = n := by
  unfold pad4
  split
  · rw [digitsVal_cons_zero, digitsVal_cons_zero, digitsVal_cons_zero, digitsVal_natDigits]
  · split
    · rw [digitsVal_cons_zero, digitsVal_cons_zero, digitsVal_natDigits]
    · split
      · rw [digitsVal_cons_zero, digitsVal_natDigits]
      · rw [digitsVal_natDigits]

theorem pad2_length_le {n : ℕ} (h : n < 100) : (pad2 n).length ≤ 2 := by
  unfold pad2
  split
  · rename_i h10
    have : (natDigits n).length ≤ 1 := natDigits_length_le (k := 1) (by simpa using h10) (by omega)
    simp only [List.length_cons]
    omega
  · exact natDigits_length_le (k := 2) (by simpa using h) (by omega)

theorem pad4_length_le {n : ℕ} (h : n ≤ 9999) : (pad4 n).length ≤ 4 := by
  unfold pad4
  split
  · rename_i h10
    have : (natDigits n).length ≤ 1 := natDigits_length_le (k := 1) (by simpa using h10) (by omega)
    simp only [List.length_cons]; omega
  · split
    · rename_i h100
      have : (natDigits n).length ≤ 2 := natDigits_length_le (k := 2) (by simpa using h100) (by omega)
      simp only [List.length_cons]; omega
    · split
      · rename_i h1000
        have : (natDigits n).length ≤ 3 :=
          natDigits_length_le (k := 3) (by simpa using h1000) (by omega)
        simp only [List.length_cons]; omega
      · exact natDigits_length_le (k := 4) (by omega) (by omega)

theorem pad2_ne_nil (n : ℕ) : pad2 n ≠ [] := by
  unfold pad2
  split
  · simp
  · exact natDigits_ne_nil n

theorem pad4_ne_nil (n : ℕ) : pad4 n ≠ [] := by
  unfold pad4
  split
  · simp
  · split
    · simp
    · split
      · simp
      · exact natDigits_ne_nil n

theorem digitChar_mem_digitList (n : ℕ) : digitChar n ∈ digitList := by
  unfold digitChar
  split <;> decide

theorem natDigits_mem_digitList (n : ℕ) : ∀ c ∈ natDigits n, c ∈ digitList := by
  induction n using Nat.strong_induction_on with
  | _ n ih =>
    rw [natDigits]
    split
    · intro c hc
      simp only [List.mem_singleton] at hc
      subst hc; exact digitChar_mem_digitList n
    · intro c hc
      rcases List.mem_append.mp hc with h | h
      · exact ih (n / 10) (Nat.div_lt_self (by omega) (by omega)) c h
      · simp only [List.mem_singleton] at h
        subst h; exact digitChar_mem_digitList _

theorem digitList_facts {c : Char} (h : c ∈ digitList) :
    isWsChar c = false ∧ c ≠ '-' ∧ c ≠ '+' ∧ c ≠ ',' ∧ c ≠ '.' ∧ c ≠ '/' ∧
      c.isDigit = true := by
  fin_cases h <;> exact ⟨rfl, by decide, by decide, by decide, by decide, by decide, rfl⟩

theorem pad2_mem_digitList (n : ℕ) : ∀ c ∈ pad2 n, c ∈ digitList := by
  unfold pad2
  split
  · intro c hc
    rcases List.mem_cons.mp hc with h | h
    · subst h; decide
    · exact natDigits_mem_digitList n c h
  · exact natDigits_mem_digitList n

theorem pad4_mem_digitList (n : ℕ) : ∀ c ∈ pad4 n, c ∈ digitList := by
  unfold pad4
  split
  · intro c hc
    simp only [List.mem_cons] at hc
    rcases hc with h | h | h | h
    · subst h; decide
    · subst h; decide
    · subst h; decide
    · exact natDigits_mem_digitList n c h
  · split
    · intro c hc
      simp only [List.mem_cons] at hc
      rcases hc with h | h | h
      · subst h; decide
      · subst h; decide
      · exact natDigits_mem_digitList n c h
    · split
      · intro c hc
        simp only [List.mem_cons] at hc
        rcases hc with h | h
        · subst h; decide
        · exact natDigits_mem_digitList n c h
      · exact natDigits_mem_digitList n

theorem dropWhile_eq_self_of {p : Char → Bool} {l : List Char}
    (h : ∀ c ∈ l, p c = false) : l.dropWhile p = l := by
  cases l with
  | nil => rfl
  | cons c rest =>
    rw [List.dropWhile_cons, if_neg]
    simp [h c (List.mem_cons_self _ _)]

theorem trimChars_eq_self {l : List Char} (h : ∀ c ∈ l, isWsChar c = false) :
    trimChars l = l := by
  unfold trimChars
  rw [dropWhile_eq_self_of h,
    dropWhile_eq_self_of (fun c hc => h c (List.mem_reverse.mp hc)),
    List.reverse_reverse]

theorem stripCommas_eq_self {l : List Char} (h : ∀ c ∈ l, c ≠ ',') :
    stripCommas l = l := by
  unfold stripCommas
  induction l with
  | nil => rfl
  | cons c rest ih =>
    rw [List.filter_cons, if_pos]
    · rw [ih (fun x hx => h x (List.mem_cons_of_mem _ hx))]
    · simp [h c (List.mem_cons_self _ _)]

theorem splitOnChar_of_not_mem {sep : Char} {xs : List Char} (h : sep ∉ xs) :
    splitOnChar sep xs = [xs] := by
  induction xs with
  | nil => rfl
  | cons c rest ih =>
    have hc : c ≠ sep := fun he => h (he ▸ List.mem_cons_self _ _)
    have hr : sep ∉ rest := fun hm => h (List.mem_cons_of_mem _ hm)
    rw [splitOnChar, if_neg hc, ih hr]

theorem splitOnChar_append {sep : Char} {xs ys : List Char} (h : sep ∉ xs) :
    splitOnChar sep (xs ++ sep :: ys) = xs :: splitOnChar sep ys := by
  induction xs with
  | nil =>
    show splitOnChar sep (sep :: ys) = [] :: splitOnChar sep ys
    rw [splitOnChar, if_pos rfl]
  | cons c rest ih =>
    have hc : c ≠ sep := fun he => h (he ▸ List.mem_cons_self _ _)
    have hr : sep ∉ rest := fun hm => h (List.mem_cons_of_mem _ hm)
    show splitOnChar sep (c :: (rest ++ sep :: ys)) = (c :: rest) :: splitOnChar sep ys
    rw [splitOnChar, if_neg hc, ih hr]

theorem genMonthsFwd_length : ∀ (n : ℕ) (a : Ym), (genMonthsFwd a n).length = n
  | 0, _ => rfl
  | n + 1, a => by
    show (a :: genMonthsFwd (nextYm a) n).length = n + 1
    rw [List.length_cons, genMonthsFwd_length n (nextYm a)]

/-! ### Claim C3 -/

/-- C3, counterexample: a request of 61 months is not clamped to 60 — both
endpoints replace it by the default 12 (routes.py lines 355-357 and
601-603). -/
theorem c3_counterexample :
    months_param_clamp 61 = 12 ∧ n_param_clamp 61 = 12 ∧
      ¬(months_param_clamp 61 = 60 ∧ n_param_clamp 61 = 60) := by
  refine ⟨rfl, rfl, ?_⟩
  intro hc
  have h1 : months_param_clamp 61 = 12 := rfl
  rw [h1] at hc
  exact absurd hc.1 (by norm_num)

/-- C3, amended: for every requested month-count/horizon outside `[1, 60]`,
both the finance summary and the scenario projection replace the value by
the default 12 (not by the nearer bound); in-range values pass through
unchanged. -/
theorem c3_default_not_clamp (p : ℤ) :
    ((p < 1 ∨ 60 < p) → months_param_clamp p = 12 ∧ n_param_clamp p = 12) ∧
      (1 ≤ p → p ≤ 60 → months_param_clamp p = p ∧ n_param_clamp p = p) := by
  constructor
  · intro h
    unfold months_param_clamp n_param_clamp
    rw [if_pos h]
    exact ⟨rfl, rfl⟩
  · intro h1 h2
    unfold months_param_clamp n_param_clamp
    rw [if_neg (by omega : ¬(p < 1 ∨ 60 < p))]
    exact ⟨rfl, rfl⟩

/-- Witness for `c3_default_not_clamp` at the concrete inputs 100 and 30. -/
theorem c3_default_not_clamp_witness :
    (months_param_clamp 100 = 12 ∧ n_param_clamp 100 = 12) ∧ months_param_clamp 30 = 30 :=
  ⟨(c3_default_not_clamp 100).1 (by norm_num),
    ((c3_default_not_clamp 30).2 (by norm_num) (by norm_num)).1⟩

/-! ### Claim C9 -/

/-- C9: for every scenario comparison over an `n`-month horizon, the first
series is named `"Baseline"` and its data is the caller-supplied current
balance (as displayed, rounded to two decimals) repeated unchanged at every
one of the `n` horizon months. -/
theorem c9_baseline_series (bal : ℚ) (start : Ym) (n : ℕ) (opts : List SOpt) :
    (compareSeries bal (genMonthsFwd start n) opts).2.head? =
      some ("Baseline", (genMonthsFwd start n).map (fun mm => (mm, round2 bal))) ∧
    ((genMonthsFwd start n).map (fun mm => (mm, round2 bal))).map Prod.fst =
      (compareSeries bal (genMonthsFwd start n) opts).1 ∧
    ((genMonthsFwd start n).map (fun mm => (mm, round2 bal))).length = n ∧
    ∀ p ∈ (genMonthsFwd start n).map (fun mm => (mm, round2 bal)), p.2 = round2 bal := by
  refine ⟨rfl, ?_, ?_, ?_⟩
  · show ((genMonthsFwd start n).map (fun mm => (mm, round2 bal))).map Prod.fst =
      genMonthsFwd start n
    rw [List.map_map]
    exact List.map_id'' (fun x => rfl) (genMonthsFwd start n)
  · rw [List.length_map, genMonthsFwd_length]
  · intro p hp
    rcases List.mem_map.mp hp with ⟨mm, _, rfl⟩
    rfl

/-! ### Claim C10 -/

/-- C10: single-record creation accepts a negative numeric amount without a
validation error and silently stores its absolute value, and every
transaction produced by the creation endpoint or by a CSV import row
satisfies `amount ≥ 0`. -/
theorem c10_amount_invariant :
    (∀ inp tx, createTx inp = Except.ok tx →
      0 ≤ tx.amount ∧ ∀ a, inp.amount = some a → tx.amount = |a|) ∧
    (∀ c r tx, processRow c r = some tx → 0 ≤ tx.amount) ∧
    createTx ⟨some "2024-01-02", some (-5), some "expense", none, none⟩ =
      Except.ok ⟨⟨2024, 1, 2⟩, 5, Kind.expense, none, none⟩ := by
  refine ⟨?_, ?_, ?_⟩
  · intro inp tx h
    unfold createTx at h
    split at h
    · exact absurd h (by simp)
    · split at h
      · exact absurd h (by simp)
      · rename_i dt hdt a ha
        split at h
        · rw [Except.ok.injEq] at h
          subst h
          refine ⟨by rw [pyAbs_eq_abs]; exact abs_nonneg a, ?_⟩
          intro a' ha'
          rw [ha] at ha'
          injection ha' with ha''
          rw [ha'']
          exact pyAbs_eq_abs a'
        · exact absurd h (by simp)
  · intro c r tx h
    unfold processRow at h
    split at h
    · exact absurd h (by simp)
    · split at h
      · exact absurd h (by simp)
      · split at h
        · exact absurd h (by simp)
        · split at h
          · exact absurd h (by simp)
          · rename_i amt hamt
            split at h
            · exact absurd h (by simp)
            · rw [Option.some.injEq] at h
              subst h
              show 0 ≤ pyAbs amt
              rw [pyAbs_eq_abs]
              exact abs_nonneg amt
  · rfl

/-- Witness for `c10_amount_invariant` at the concrete negative input -5. -/
theorem c10_amount_invariant_witness :
    0 ≤ (⟨⟨2024, 1, 2⟩, 5, Kind.expense, none, none⟩ : TxRec).amount ∧
      (⟨⟨2024, 1, 2⟩, 5, Kind.expense, none, none⟩ : TxRec).amount = |(-5 : ℚ)| :=
  ⟨(c10_amount_invariant.1 ⟨some "2024-01-02", some (-5), some "expense", none, none⟩
      ⟨⟨2024, 1, 2⟩, 5, Kind.expense, none, none⟩ c10_amount_invariant.2.2).1,
    (c10_amount_invariant.1 ⟨some "2024-01-02", some (-5), some "expense", none, none⟩
      ⟨⟨2024, 1, 2⟩, 5, Kind.expense, none, none⟩ c10_amount_invariant.2.2).2 (-5) rfl⟩

/-! ### Claim C7 -/

theorem typeIncomeFlag_spec (c : Cols) (r : List String) (ti : Bool)
    (h : typeIncomeFlag c r = some ti) :
    ti = true ↔ ∃ i v, c.typeC = some i ∧ r.get? i = some v ∧
      containsSub "income".toList (lowerChars v.toList) = true := by
  unfold typeIncomeFlag at h
  split at h
  · rename_i htc
    injection h with h'
    subst h'
    constructor
    · intro hf
      exact absurd hf (by simp)
    · rintro ⟨i, v, hi, -, -⟩
      rw [htc] at hi
      exact absurd hi (by simp)
  · rename_i i htc
    split at h
    · exact absurd h (by simp)
    · rename_i v hv
      injection h with h'
      subst h'
      constructor
      · intro hc
        exact ⟨i, v, htc, hv, hc⟩
      · rintro ⟨i', v', hi', hv', hc'⟩
        rw [htc] at hi'
        injection hi' with hii
        subst hii
        rw [hv] at hv'
        injection hv' with hvv
        subst hvv
        exact hc'

/-- C7: for every CSV data row the importer converts, the stored kind is
income exactly when the type column exists and its value contains
`"income"` case-insensitively, or else the resolved amount is positive
(zero or negative giving expense); the stored amount is always the
absolute value of the resolved amount. -/
theorem c7_kind_inference (c : Cols) (r : List String) (tx : TxRec)
    (h : processRow c r = some tx) :
    ∃ a ti, resolveAmt c r = some a ∧ typeIncomeFlag c r = some ti ∧
      tx.amount = |a| ∧
      (tx.type = Kind.income ↔ (ti = true ∨ 0 < a)) ∧
      (ti = true ↔ ∃ i v, c.typeC = some i ∧ r.get? i = some v ∧
        containsSub "income".toList (lowerChars v.toList) = true) := by
  unfold processRow at h
  split at h
  · exact absurd h (by simp)
  · split at h
    · exact absurd h (by simp)
    · split at h
      · exact absurd h (by simp)
      · split at h
        · exact absurd h (by simp)
        · rename_i amt hamt
          split at h
          · exact absurd h (by simp)
          · rename_i ti hti
            rw [Option.some.injEq] at h
            subst h
            refine ⟨amt, ti, hamt, hti, pyAbs_eq_abs amt, ?_, typeIncomeFlag_spec c r ti hti⟩
            by_cases hb : (ti || decide (0 < amt)) = true
            · rw [if_pos hb]
              simp only [Bool.or_eq_true, decide_eq_true_eq] at hb
              simpa using hb
            · rw [if_neg hb]
              simp only [Bool.or_eq_true, decide_eq_true_eq] at hb
              push_neg at hb
              constructor
              · intro he
                exact absurd he (by simp)
              · intro hor
                rcases hor with h1 | h2
                · exact absurd h1 hb.1
                · exact absurd h2 (by simpa using hb.2)

/-- Witness for `c7_kind_inference`: a row whose type cell contains
`"Income"` inside other text and whose amount cell is negative. -/
theorem c7_kind_inference_witness :
    ∃ a ti,
      resolveAmt (resolveCols ["date", "type", "amount"]) ["2024-01-01", "xIncOmeY", "-3"] =
        some a ∧
      typeIncomeFlag (resolveCols ["date", "type", "amount"]) ["2024-01-01", "xIncOmeY", "-3"] =
        some ti ∧
      (⟨⟨2024, 1, 1⟩, 3, Kind.income, none, none⟩ : TxRec).amount = |a| ∧
      ((⟨⟨2024, 1, 1⟩, 3, Kind.income, none, none⟩ : TxRec).type = Kind.income ↔
        (ti = true ∨ 0 < a)) ∧
      (ti = true ↔ ∃ i v,
        (resolveCols ["date", "type", "amount"]).typeC = some i ∧
        (["2024-01-01", "xIncOmeY", "-3"] : List String).get? i = some v ∧
        containsSub "income".toList (lowerChars v.toList) = true) :=
  c7_kind_inference (resolveCols ["date", "type", "amount"]) ["2024-01-01", "xIncOmeY", "-3"]
    ⟨⟨2024, 1, 1⟩, 3, Kind.income, none, none⟩ (by decide)

/-! ### Claim C8 -/

theorem processRows_spec (c : Cols) (rows : List (List String)) :
    processRows c rows =
      (rows.countP (fun r => (processRow c r).isSome), rows.filterMap (processRow c)) := by
  suffices hgen : ∀ (rs : List (List String)) (n : ℕ) (acc : List TxRec),
      rs.foldl
        (fun acc r =>
          match processRow c r with
          | some tx => (acc.1 + 1, acc.2 ++ [tx])
          | none => acc)
        (n, acc) =
        (n + rs.countP (fun r => (processRow c r).isSome), acc ++ rs.filterMap (processRow c)) by
    have h0 := hgen rows 0 []
    unfold processRows
    simpa using h0
  intro rs
  induction rs with
  | nil =>
    intro n acc
    simp
  | cons r rest ih =>
    intro n acc
    rw [List.foldl_cons]
    cases hpr : processRow c r with
    | none =>
      show rest.foldl _ (n, acc) = _
      rw [ih n acc, List.countP_cons, List.filterMap_cons, hpr]
      simp [hpr]
    | some tx =>
      show rest.foldl _ (n + 1, acc ++ [tx]) = _
      rw [ih (n + 1) (acc ++ [tx]), List.countP_cons, List.filterMap_cons, hpr]
      simp only [hpr, Option.isSome_some, if_pos, List.append_assoc, List.singleton_append]
      have hn : n + 1 + List.countP (fun r => (processRow c r).isSome) rest =
          n + (List.countP (fun r => (processRow c r).isSome) rest + 1) := by omega
      rw [hn]

/-- C8: CSV row processing is fault-isolated — the import loop's result is
exactly the per-row success count and the per-row successful conversions
(so each row is judged in isolation and the loop never fails as a whole),
and deleting any single failing row from the input leaves the result
unchanged. -/
theorem c8_fault_isolation (c : Cols) :
    (∀ rows, (processRows c rows).1 = rows.countP (fun r => (processRow c r).isSome) ∧
      (processRows c rows).2 = rows.filterMap (processRow c)) ∧
    ∀ pre suf bad, processRow c bad = none →
      processRows c (pre ++ bad :: suf) = processRows c (pre ++ suf) := by
  constructor
  · intro rows
    rw [processRows_spec]
    exact ⟨rfl, rfl⟩
  · intro pre suf bad hbad
    rw [processRows_spec, processRows_spec]
    rw [List.countP_append, List.countP_append, List.countP_cons,
      List.filterMap_append, List.filterMap_append, List.filterMap_cons, hbad]
    simp [hbad]

/-- Witness for `c8_fault_isolation`: a middle row with an unparseable date
is skipped and the surrounding rows import as if it were absent. -/
theorem c8_fault_isolation_witness :
    processRows (resolveCols ["date", "amount"])
        [["2024-01-01", "5"], ["notadate", "5"], ["2024-02-01", "7"]] =
      processRows (resolveCols ["date", "amount"])
        [["2024-01-01", "5"], ["2024-02-01", "7"]] :=
  (c8_fault_isolation (resolveCols ["date", "amount"])).2
    [["2024-01-01", "5"]] [["2024-02-01", "7"]] ["notadate", "5"] rfl

/-! ### Claim C2 -/

theorem activeB_iff (o : SOpt) (mm : Ym) :
    activeB o mm = true ↔
      (ymLe o.start_month mm ∧ (o.months = none ∨
        ∃ d, o.months = some d ∧ ymLt mm (addMonths o.start_month d))) := by
  unfold activeB withinDurB
  cases hmo : o.months with
  | none => simp [decide_eq_true_eq]
  | some d =>
    simp only [Bool.and_eq_true, decide_eq_true_eq]
    constructor
    · rintro ⟨h1, h2⟩
      exact ⟨h1, Or.inr ⟨d, rfl, h2⟩⟩
    · rintro ⟨h1, h2⟩
      refine ⟨h1, ?_⟩
      rcases h2 with h2 | ⟨d', hd', h2⟩
      · exact absurd h2 (by simp)
      · injection hd' with hdd
        subst hdd
        exact h2

theorem optStep_eq (o : SOpt) (cur : ℚ) (mm : Ym) :
    optStep o cur mm = cur + optContrib o mm := by
  have hiff : (ymLe o.start_month mm ∧ ((match o.months with
      | none => true
      | some d => !(decide (ymLt mm o.start_month) ||
          decide (ymLe (addMonths o.start_month d) mm))) = true))
      ↔ activeB o mm = true := by
    unfold activeB withinDurB
    cases o.months with
    | none => simp [decide_eq_true_eq]
    | some d =>
      simp only [Bool.and_eq_true, decide_eq_true_eq, Bool.not_eq_true', Bool.or_eq_false_iff,
        decide_eq_false_iff_not, not_ymLt_iff, not_ymLe_iff]
      constructor
      · rintro ⟨h1, h2, h3⟩
        exact ⟨h1, h3⟩
      · rintro ⟨h1, h3⟩
        exact ⟨h1, h1, h3⟩
  simp only [optStep, optContrib]
  by_cases hact : activeB o mm = true
  · rw [if_pos (hiff.mpr hact), if_pos hact]
    by_cases hot : mm = o.start_month ∧ o.one_time_delta ≠ 0
    · rw [if_pos hot, if_pos hot]
      ring
    · rw [if_neg hot, if_neg hot]
      ring
  · rw [if_neg (fun hc => hact (hiff.mp hc)), if_neg hact]
    by_cases hot : mm = o.start_month ∧ o.one_time_delta ≠ 0
    · rw [if_pos hot, if_pos hot]
      ring
    · rw [if_neg hot, if_neg hot]
      ring

/-- C2: in each option's projection (running balance initialized to the
current balance, months iterated in ascending order) the value after month
index `i` is the initial balance plus, for every month so far, the monthly
delta exactly when `m ≥ startMonth` and (`durationMonths` is null or
`m < startMonth + durationMonths` in calendar-month arithmetic), plus the
one-time delta exactly once at `m = startMonth` when non-zero, regardless of
the window; with `durationMonths = 0` the window is empty so the monthly
delta never applies while the one-time delta still fires. -/
theorem c2_option_deltas (o : SOpt) (bal : ℚ) (ms : List Ym) :
    (∀ i, i < ms.length → ∃ mm, ms.get? i = some mm ∧
      (optLoop o bal ms).get? i =
        some (mm, round2 (bal + ((ms.take (i + 1)).map (optContrib o)).sum))) ∧
    (∀ mm, activeB o mm = true ↔
      (ymLe o.start_month mm ∧ (o.months = none ∨
        ∃ d, o.months = some d ∧ ymLt mm (addMonths o.start_month d)))) ∧
    (o.months = some 0 → 1 ≤ o.start_month.m → o.start_month.m ≤ 12 →
      ∀ mm, activeB o mm = false) := by
  refine ⟨?_, fun mm => activeB_iff o mm, ?_⟩
  · induction ms generalizing bal with
    | nil =>
      intro i h
      exact absurd h (by simp)
    | cons mm rest ih =>
      intro i h
      cases i with
      | zero =>
        refine ⟨mm, rfl, ?_⟩
        show some (mm, round2 (optStep o bal mm)) = _
        rw [optStep_eq]
        simp
      | succ j =>
        have hj : j < rest.length := by simpa using h
        rcases ih (optStep o bal mm) j hj with ⟨mm', hm', hval⟩
        refine ⟨mm', by simpa using hm', ?_⟩
        show (optLoop o (optStep o bal mm) rest).get? j = _
        rw [hval, optStep_eq]
        rw [List.take_succ_cons, List.map_cons, List.sum_cons, add_assoc]
  · intro hm0 hm1 hm2 mm
    unfold activeB withinDurB
    rw [hm0]
    show (decide (ymLe o.start_month mm) && decide (ymLt mm (addMonths o.start_month 0))) = false
    rw [addMonths_self_zero ⟨hm1, hm2⟩]
    by_cases hle : ymLe o.start_month mm
    · have hnlt : ¬ ymLt mm o.start_month := not_ymLt_iff.mpr hle
      simp [hle, hnlt]
    · simp [hle]

/-- Witness for `c2_option_deltas`: an option with `durationMonths = 0` and
a one-time delta, at the second horizon month (its start month). -/
theorem c2_option_deltas_witness :
    (∃ mm, (genMonthsFwd ⟨2024, 1⟩ 4).get? 1 = some mm ∧
      (optLoop ⟨"o", 200, 50, ⟨2024, 2⟩, some 0⟩ 1000 (genMonthsFwd ⟨2024, 1⟩ 4)).get? 1 =
        some (mm, round2 (1000 + (((genMonthsFwd ⟨2024, 1⟩ 4).take 2).map
          (optContrib ⟨"o", 200, 50, ⟨2024, 2⟩, some 0⟩)).sum))) ∧
    activeB ⟨"o", 200, 50, ⟨2024, 2⟩, some 0⟩ ⟨2024, 2⟩ = false :=
  ⟨(c2_option_deltas ⟨"o", 200, 50, ⟨2024, 2⟩, some 0⟩ 1000 (genMonthsFwd ⟨2024, 1⟩ 4)).1 1
      (by decide),
    (c2_option_deltas ⟨"o", 200, 50, ⟨2024, 2⟩, some 0⟩ 1000 (genMonthsFwd ⟨2024, 1⟩ 4)).2.2
      rfl (by decide) (by decide) ⟨2024, 2⟩⟩

/-! ### Claim C6 -/

theorem genBackAux_length : ∀ (k : ℕ) (a : Ym), (genBackAux a k).length = k
  | 0, _ => rfl
  | k + 1, a => by
    show (a :: genBackAux (prevYm a) k).length = k + 1
    rw [List.length_cons, genBackAux_length k (prevYm a)]

theorem prevYm_spec {a : Ym} (h1 : 1 ≤ a.m) (h2 : a.m ≤ 12) (h3 : 1 ≤ ymIdx a) :
    1 ≤ (prevYm a).m ∧ (prevYm a).m ≤ 12 ∧ ymIdx (prevYm a) + 1 = ymIdx a ∧
      (prevYm a).y ≤ a.y := by
  unfold prevYm ymIdx at *
  split <;> dsimp only [] <;> omega

theorem genBackAux_spec : ∀ (k : ℕ) (a : Ym), 1 ≤ a.m → a.m ≤ 12 → k ≤ ymIdx a + 1 →
    (∀ x ∈ genBackAux a k, 1 ≤ x.m ∧ x.m ≤ 12 ∧ x.y ≤ a.y) ∧
    List.Chain' (fun p q => ymLt q p) (genBackAux a k) ∧
    (genBackAux a k).head? = if k = 0 then none else some a := by
  intro k
  induction k with
  | zero =>
    intro a _ _ _
    exact ⟨by simp [genBackAux], by simp [genBackAux], by simp [genBackAux]⟩
  | succ n ih =>
    intro a h1 h2 hk
    show (∀ x ∈ a :: genBackAux (prevYm a) n, _) ∧
      List.Chain' _ (a :: genBackAux (prevYm a) n) ∧
      (a :: genBackAux (prevYm a) n).head? = _
    cases n with
    | zero =>
      refine ⟨?_, ?_, ?_⟩
      · intro x hx
        have hx' : x = a := by simpa [genBackAux] using hx
        subst hx'
        exact ⟨h1, h2, le_refl _⟩
      · simp [genBackAux]
      · simp
    | succ n' =>
      have hidx : 1 ≤ ymIdx a := by omega
      obtain ⟨p1, p2, p3, p4⟩ := prevYm_spec h1 h2 hidx
      have hk' : n' + 1 ≤ ymIdx (prevYm a) + 1 := by omega
      obtain ⟨ihm, ihc, ihh⟩ := ih (prevYm a) p1 p2 hk'
      refine ⟨?_, ?_, ?_⟩
      · intro x hx
        rcases List.mem_cons.mp hx with rfl | hx'
        · exact ⟨h1, h2, le_refl _⟩
        · obtain ⟨q1, q2, q3⟩ := ihm x hx'
          exact ⟨q1, q2, le_trans q3 p4⟩
      · rw [List.chain'_cons']
        refine ⟨?_, ihc⟩
        intro b hb
        rw [ihh] at hb
        rw [if_neg (by omega : ¬ n' + 1 = 0)] at hb
        have hb' : prevYm a = b := by simpa using hb
        rw [← hb']
        show ymLt (prevYm a) a
        rw [ymLt_iff_idx ⟨p1, p2⟩ ⟨h1, h2⟩]
        omega
      · simp

theorem genMonthsBack_props (a : Ym) (k : ℕ) (h1 : 1 ≤ a.m) (h2 : a.m ≤ 12)
    (hk : 1 ≤ k) (hky : k ≤ ymIdx a + 1) :
    (genMonthsBack a k).length = k ∧
    (∀ x ∈ genMonthsBack a k, 1 ≤ x.m ∧ x.m ≤ 12 ∧ x.y ≤ a.y) ∧
    List.Pairwise ymLt (genMonthsBack a k) ∧
    (genMonthsBack a k).getLast? = some a := by
  obtain ⟨hm, hc, hh⟩ := genBackAux_spec k a h1 h2 hky
  unfold genMonthsBack
  refine ⟨?_, ?_, ?_, ?_⟩
  · rw [List.length_reverse, genBackAux_length]
  · intro x hx
    exact hm x (List.mem_reverse.mp hx)
  · have hcr : List.Chain' ymLt (genBackAux a k).reverse := by
      rw [List.chain'_reverse]
      exact hc
    exact List.chain'_iff_pairwise.mp hcr
  · rw [List.getLast?_reverse, hh, if_neg (by omega : ¬ k = 0)]

theorem monthlyIncome_empty {txs : List TxRec} {mm : Ym}
    (h : ∀ tx ∈ txs, monthOf tx ≠ mm) : monthlyIncome txs mm = 0 := by
  unfold monthlyIncome
  rw [List.filter_eq_nil.mpr, List.map_nil, List.sum_nil]
  intro t ht
  simp only [Bool.and_eq_true, beq_iff_eq, not_and]
  intro _
  exact h t ht

theorem monthlyExpense_empty {txs : List TxRec} {mm : Ym}
    (h : ∀ tx ∈ txs, monthOf tx ≠ mm) : monthlyExpense txs mm = 0 := by
  unfold monthlyExpense
  rw [List.filter_eq_nil.mpr, List.map_nil, List.sum_nil]
  intro t ht
  simp only [Bool.and_eq_true, beq_iff_eq, not_and]
  intro _
  exact h t ht

theorem round2_zero : round2 0 = 0 := by
  unfold round2
  norm_num

/-- C6: for every transaction set and month count in `[1, 60]`, the monthly
rollup has exactly `monthCount` entries whose month keys are the
backward-generated list reversed to ascending order: every key is a valid
`"YYYY-MM"` (month in `1..12`, year at most 9999), the keys are strictly
ascending and end at the as-of month, and a month with no transactions
reports zero income, expense and net rather than being absent. -/
theorem c6_monthly_rollup (txs : List TxRec) (asOf : Ym) (k : ℕ)
    (hk1 : 1 ≤ k) (hk2 : k ≤ 60) (hm1 : 1 ≤ asOf.m) (hm2 : asOf.m ≤ 12)
    (hy1 : 5 ≤ asOf.y) (hy2 : asOf.y ≤ 9999) :
    (monthlyRollup txs asOf k).length = k ∧
    (monthlyRollup txs asOf k).map Prod.fst = genMonthsBack asOf k ∧
    (∀ x ∈ genMonthsBack asOf k, 1 ≤ x.m ∧ x.m ≤ 12 ∧ x.y ≤ 9999) ∧
    List.Pairwise ymLt (genMonthsBack asOf k) ∧
    (genMonthsBack asOf k).getLast? = some asOf ∧
    (∀ e ∈ monthlyRollup txs asOf k, (∀ tx ∈ txs, monthOf tx ≠ e.1) →
      e.2 = (0, 0, 0)) := by
  have hky : k ≤ ymIdx asOf + 1 := by
    unfold ymIdx
    have : 60 ≤ asOf.y * 12 := by omega
    omega
  obtain ⟨hlen, hval, hpw, hlast⟩ := genMonthsBack_props asOf k hm1 hm2 hk1 hky
  refine ⟨?_, ?_, ?_, hpw, hlast, ?_⟩
  · unfold monthlyRollup
    rw [List.length_map, hlen]
  · unfold monthlyRollup
    rw [List.map_map]
    exact List.map_id'' (fun x => rfl) _
  · intro x hx
    obtain ⟨q1, q2, q3⟩ := hval x hx
    exact ⟨q1, q2, le_trans q3 hy2⟩
  · intro e he hnone
    unfold monthlyRollup at he
    rcases List.mem_map.mp he with ⟨mm, _, rfl⟩
    show (round2 (monthlyIncome txs mm), round2 (monthlyExpense txs mm),
      round2 (monthlyIncome txs mm - monthlyExpense txs mm)) = (0, 0, 0)
    have hi : monthlyIncome txs mm = 0 := monthlyIncome_empty hnone
    have he' : monthlyExpense txs mm = 0 := monthlyExpense_empty hnone
    rw [hi, he', sub_zero, round2_zero]

/-- Witness for `c6_monthly_rollup` with no transactions, as-of month
2026-10 and a 12-month window. -/
theorem c6_monthly_rollup_witness :
    (monthlyRollup [] ⟨2026, 10⟩ 12).length = 12 ∧
    (monthlyRollup [] ⟨2026, 10⟩ 12).map Prod.fst = genMonthsBack ⟨2026, 10⟩ 12 ∧
    (∀ x ∈ genMonthsBack ⟨2026, 10⟩ 12, 1 ≤ x.m ∧ x.m ≤ 12 ∧ x.y ≤ 9999) ∧
    List.Pairwise ymLt (genMonthsBack ⟨2026, 10⟩ 12) ∧
    (genMonthsBack ⟨2026, 10⟩ 12).getLast? = some ⟨2026, 10⟩ ∧
    (∀ e ∈ monthlyRollup [] ⟨2026, 10⟩ 12, (∀ tx ∈ [], monthOf tx ≠ e.1) →
      e.2 = (0, 0, 0)) :=
  c6_monthly_rollup [] ⟨2026, 10⟩ 12 (by norm_num) (by norm_num) (by norm_num) (by norm_num)
    (by norm_num) (by norm_num)

/-! ### Claim C5 -/

theorem by_category_expense_only (txs : List TxRec) :
    by_category txs = by_category (txs.filter (fun t => t.type == Kind.expense)) := by
  unfold by_category
  suffices hgen : ∀ (ts : List TxRec) (acc : List (String × ℚ)),
      ts.foldl
        (fun acc tx => if tx.type == Kind.expense then addCat acc (catKey tx) tx.amount else acc)
        acc =
      (ts.filter (fun t => t.type == Kind.expense)).foldl
        (fun acc tx => if tx.type == Kind.expense then addCat acc (catKey tx) tx.amount else acc)
        acc by
    exact hgen txs []
  intro ts
  induction ts with
  | nil => intro acc; rfl
  | cons t rest ih =>
    intro acc
    rw [List.foldl_cons, List.filter_cons]
    by_cases ht : (t.type == Kind.expense) = true
    · rw [if_pos ht, if_pos ht, List.foldl_cons, if_pos ht]
      exact ih _
    · rw [if_neg ht, if_neg ht]
      exact ih acc

theorem lookupAmt_cons (p : String × ℚ) (rest : List (String × ℚ)) (k : String) :
    lookupAmt (p :: rest) k = (if p.1 = k then p.2 else 0) + lookupAmt rest k := by
  unfold lookupAmt
  rw [List.filter_cons]
  by_cases h : p.1 = k
  · simp [h]
  · simp [h]

theorem lookupAmt_addCat (acc : List (String × ℚ)) (key : String) (amt : ℚ) (k : String) :
    lookupAmt (addCat acc key amt) k = lookupAmt acc k + (if k = key then amt else 0) := by
  induction acc with
  | nil =>
    show lookupAmt [(key, amt)] k = lookupAmt [] k + _
    rw [lookupAmt_cons]
    by_cases h : key = k
    · rw [if_pos h, if_pos h.symm]
      ring
    · rw [if_neg h, if_neg (fun he => h he.symm)]
      ring
  | cons q rest ih =>
    show lookupAmt (if q.1 = key then (q.1, q.2 + amt) :: rest else q :: addCat rest key amt) k =
      _
    by_cases hq : q.1 = key
    · rw [if_pos hq, lookupAmt_cons, lookupAmt_cons]
      by_cases hk : q.1 = k
      · rw [if_pos hk, if_pos hk, if_pos (by rw [← hk, hq] : k = key)]
        ring
      · rw [if_neg hk, if_neg hk, if_neg (by rw [hq] at hk; exact fun he => hk he.symm)]
        ring
    · rw [if_neg hq, lookupAmt_cons, lookupAmt_cons, ih]
      ring

theorem lookupAmt_foldl_by_category (txs : List TxRec) (acc : List (String × ℚ)) (k : String) :
    lookupAmt
        (txs.foldl
          (fun acc tx =>
            if tx.type == Kind.expense then addCat acc (catKey tx) tx.amount else acc)
          acc) k =
      lookupAmt acc k +
        ((txs.filter (fun t => t.type == Kind.expense && catKey t == k)).map
          (fun t => t.amount)).sum := by
  induction txs generalizing acc with
  | nil => simp
  | cons t rest ih =>
    rw [List.foldl_cons]
    by_cases ht : (t.type == Kind.expense) = true
    · rw [if_pos ht, ih (addCat acc (catKey t) t.amount), lookupAmt_addCat]
      by_cases hk : catKey t = k
      · rw [List.filter_cons_of_pos (by simp [ht, hk]), List.map_cons, List.sum_cons,
          if_pos hk.symm]
        ring
      · rw [List.filter_cons_of_neg (by simp [ht, hk]), if_neg (fun he => hk he.symm)]
        ring
    · have ht' : (t.type == Kind.expense) = false := by simpa using ht
      rw [if_neg ht, List.filter_cons_of_neg (by simp [ht'])]
      exact ih acc

theorem lookupAmt_eq_zero_of_not_mem {l : List (String × ℚ)} {k : String}
    (h : k ∉ l.map Prod.fst) : lookupAmt l k = 0 := by
  induction l with
  | nil => rfl
  | cons p rest ih =>
    rw [lookupAmt_cons]
    rw [List.map_cons] at h
    have h1 : p.1 ≠ k := fun he => h (he ▸ List.mem_cons_self _ _)
    have h2 : k ∉ rest.map Prod.fst := fun hm => h (List.mem_cons_of_mem _ hm)
    rw [if_neg h1, ih h2, zero_add]

theorem lookupAmt_of_mem {l : List (String × ℚ)} (hnd : (l.map Prod.fst).Nodup)
    {p : String × ℚ} (hp : p ∈ l) : lookupAmt l p.1 = p.2 := by
  induction l with
  | nil => cases hp
  | cons q rest ih =>
    rw [List.map_cons, List.nodup_cons] at hnd
    rw [lookupAmt_cons]
    rcases List.mem_cons.mp hp with rfl | hp'
    · rw [if_pos rfl, lookupAmt_eq_zero_of_not_mem hnd.1, add_zero]
    · have hne : q.1 ≠ p.1 := by
        intro he
        exact hnd.1 (he ▸ List.mem_map_of_mem Prod.fst hp')
      rw [if_neg hne, ih hnd.2 hp', zero_add]

theorem addCat_keys (acc : List (String × ℚ)) (key : String) (amt : ℚ) :
    (addCat acc key amt).map Prod.fst =
      if key ∈ acc.map Prod.fst then acc.map Prod.fst else acc.map Prod.fst ++ [key] := by
  induction acc with
  | nil => simp [addCat]
  | cons q rest ih =>
    show ((if q.1 = key then (q.1, q.2 + amt) :: rest else q :: addCat rest key amt).map
      Prod.fst) = _
    by_cases hq : q.1 = key
    · rw [if_pos hq, if_pos (by rw [List.map_cons]; exact hq ▸ List.mem_cons_self _ _)]
      rfl
    · rw [if_neg hq, List.map_cons, List.map_cons, ih]
      by_cases hmem : key ∈ rest.map Prod.fst
      · rw [if_pos hmem, if_pos (List.mem_cons_of_mem _ hmem)]
      · rw [if_neg hmem, if_neg (by
          intro hc
          rcases List.mem_cons.mp hc with he | hm
          · exact hq he.symm
          · exact hmem hm)]
        rfl

theorem addCat_keys_nodup {acc : List (String × ℚ)} (h : (acc.map Prod.fst).Nodup)
    (key : String) (amt : ℚ) : ((addCat acc key amt).map Prod.fst).Nodup := by
  rw [addCat_keys]
  by_cases hmem : key ∈ acc.map Prod.fst
  · rw [if_pos hmem]
    exact h
  · rw [if_neg hmem]
    rw [List.nodup_append]
    exact ⟨h, List.nodup_singleton key, by simpa using hmem⟩

theorem by_category_keys_nodup (txs : List TxRec) :
    ((by_category txs).map Prod.fst).Nodup := by
  unfold by_category
  suffices hgen : ∀ (ts : List TxRec) (acc : List (String × ℚ)), (acc.map Prod.fst).Nodup →
      ((ts.foldl
        (fun acc tx => if tx.type == Kind.expense then addCat acc (catKey tx) tx.amount else acc)
        acc).map Prod.fst).Nodup by
    exact hgen txs [] (by simp)
  intro ts
  induction ts with
  | nil => intro acc h; exact h
  | cons t rest ih =>
    intro acc h
    rw [List.foldl_cons]
    by_cases ht : (t.type == Kind.expense) = true
    · rw [if_pos ht]
      exact ih _ (addCat_keys_nodup h (catKey t) t.amount)
    · rw [if_neg ht]
      exact ih acc h

theorem mem_addCat_keys (acc : List (String × ℚ)) (key : String) (amt : ℚ) (k : String) :
    k ∈ (addCat acc key amt).map Prod.fst ↔ (k ∈ acc.map Prod.fst ∨ k = key) := by
  rw [addCat_keys]
  by_cases hmem : key ∈ acc.map Prod.fst
  · rw [if_pos hmem]
    constructor
    · exact Or.inl
    · rintro (h | rfl)
      · exact h
      · exact hmem
  · rw [if_neg hmem]
    simp [List.mem_append]

theorem mem_by_category_keys (txs : List TxRec) (k : String) :
    k ∈ (by_category txs).map Prod.fst ↔
      ∃ tx, tx ∈ txs ∧ tx.type = Kind.expense ∧ catKey tx = k := by
  unfold by_category
  suffices hgen : ∀ (ts : List TxRec) (acc : List (String × ℚ)),
      (k ∈ ((ts.foldl
        (fun acc tx => if tx.type == Kind.expense then addCat acc (catKey tx) tx.amount else acc)
        acc).map Prod.fst) ↔
        (k ∈ acc.map Prod.fst ∨ ∃ tx, tx ∈ ts ∧ tx.type = Kind.expense ∧ catKey tx = k)) by
    rw [hgen txs []]
    simp
  intro ts
  induction ts with
  | nil =>
    intro acc
    simp
  | cons t rest ih =>
    intro acc
    rw [List.foldl_cons]
    by_cases ht : (t.type == Kind.expense) = true
    · rw [if_pos ht, ih, mem_addCat_keys]
      rw [beq_iff_eq] at ht
      constructor
      · rintro ((h | rfl) | ⟨tx, htx, h1, h2⟩)
        · exact Or.inl h
        · exact Or.inr ⟨t, List.mem_cons_self _ _, ht, rfl⟩
        · exact Or.inr ⟨tx, List.mem_cons_of_mem _ htx, h1, h2⟩
      · rintro (h | ⟨tx, htx, h1, h2⟩)
        · exact Or.inl (Or.inl h)
        · rcases List.mem_cons.mp htx with rfl | htx'
          · exact Or.inl (Or.inr h2.symm)
          · exact Or.inr ⟨tx, htx', h1, h2⟩
    · rw [if_neg ht, ih]
      have ht' : t.type ≠ Kind.expense := by simpa using ht
      constructor
      · rintro (h | ⟨tx, htx, h1, h2⟩)
        · exact Or.inl h
        · exact Or.inr ⟨tx, List.mem_cons_of_mem _ htx, h1, h2⟩
      · rintro (h | ⟨tx, htx, h1, h2⟩)
        · exact Or.inl h
        · rcases List.mem_cons.mp htx with rfl | htx'
          · exact absurd h1 ht'
          · exact Or.inr ⟨tx, htx', h1, h2⟩

theorem filter_amt_cons_pos {x : String × ℚ} {v : ℚ} (l : List (String × ℚ))
    (hx : (x.2 == v) = true) :
    (x :: l).filter (fun p => p.2 == v) = x :: l.filter (fun p => p.2 == v) :=
  List.filter_cons_of_pos hx

theorem filter_amt_cons_neg {x : String × ℚ} {v : ℚ} (l : List (String × ℚ))
    (hx : ¬ (x.2 == v) = true) :
    (x :: l).filter (fun p => p.2 == v) = l.filter (fun p => p.2 == v) :=
  List.filter_cons_of_neg hx

theorem filter_orderedInsert_amt (x : String × ℚ) (v : ℚ) :
    ∀ s : List (String × ℚ),
      (List.orderedInsert amtGe x s).filter (fun p => p.2 == v) =
        if (x.2 == v) = true then x :: s.filter (fun p => p.2 == v)
        else s.filter (fun p => p.2 == v)
  | [] => by
    show List.filter _ [x] = _
    by_cases hx : (x.2 == v) = true
    · rw [if_pos hx, filter_amt_cons_pos _ hx]
    · rw [if_neg hx, filter_amt_cons_neg _ hx]
  | b :: rest => by
    show List.filter _ (if amtGe x b then x :: b :: rest else b :: List.orderedInsert amtGe x rest) = _
    by_cases hle : amtGe x b
    · rw [if_pos hle]
      by_cases hx : (x.2 == v) = true
      · rw [if_pos hx, filter_amt_cons_pos _ hx]
      · rw [if_neg hx, filter_amt_cons_neg _ hx]
    · rw [if_neg hle]
      have hvb : x.2 < b.2 := lt_of_not_le hle
      by_cases hx : (x.2 == v) = true
      · have hbv : (b.2 == v) = false := by
          rw [beq_iff_eq] at hx
          simp only [beq_eq_false_iff_ne]
          intro he
          rw [he, ← hx] at hvb
          exact lt_irrefl _ hvb
        rw [if_pos hx, filter_amt_cons_neg _ (by simp [hbv]),
          filter_amt_cons_neg _ (by simp [hbv]), filter_orderedInsert_amt x v rest,
          if_pos hx]
      · rw [if_neg hx, List.filter_cons, List.filter_cons, filter_orderedInsert_amt x v rest,
          if_neg hx]

theorem insertionSort_filter_amt (v : ℚ) :
    ∀ l : List (String × ℚ),
      (List.insertionSort amtGe l).filter (fun p => p.2 == v) =
        l.filter (fun p => p.2 == v)
  | [] => rfl
  | x :: xs => by
    show (List.orderedInsert amtGe x (List.insertionSort amtGe xs)).filter _ = _
    rw [filter_orderedInsert_amt, insertionSort_filter_amt v xs]
    by_cases hx : (x.2 == v) = true
    · rw [if_pos hx, filter_amt_cons_pos _ hx]
    · rw [if_neg hx, filter_amt_cons_neg _ hx]

theorem by_category_amounts (txs : List TxRec) :
    ∀ p ∈ by_category txs, p.2 =
      ((txs.filter (fun t => t.type == Kind.expense && catKey t == p.1)).map
        (fun t => t.amount)).sum := by
  intro p hp
  have h1 : lookupAmt (by_category txs) p.1 = p.2 :=
    lookupAmt_of_mem (by_category_keys_nodup txs) hp
  have h2 := lookupAmt_foldl_by_category txs [] p.1
  unfold by_category at h1
  rw [h2] at h1
  have h0 : lookupAmt ([] : List (String × ℚ)) p.1 = 0 := rfl
  rw [h0, zero_add] at h1
  exact h1.symm

/-- C5: the category breakdown is the stable descending-by-amount sort of
the insertion-ordered expense groups: it covers exactly the expense
transactions (income excluded entirely), each group's amount is the sum of
the expense transactions whose (`"Uncategorized"`-substituted) category is
its key, the output is sorted descending by summed amount, and elements of
equal amount keep their first-seen relative order (the sort preserves every
equal-amount fiber of the insertion-ordered group list). -/
theorem c5_category_breakdown (txs : List TxRec) :
    category_breakdown txs =
      (List.insertionSort amtGe (by_category txs)).map (fun p => (p.1, round2 p.2)) ∧
    (List.insertionSort amtGe (by_category txs)).Sorted amtGe ∧
    (List.insertionSort amtGe (by_category txs)).Perm (by_category txs) ∧
    (∀ v, (List.insertionSort amtGe (by_category txs)).filter (fun p => p.2 == v) =
      (by_category txs).filter (fun p => p.2 == v)) ∧
    by_category txs = by_category (txs.filter (fun t => t.type == Kind.expense)) ∧
    (∀ p ∈ by_category txs, p.2 =
      ((txs.filter (fun t => t.type == Kind.expense && catKey t == p.1)).map
        (fun t => t.amount)).sum) ∧
    (∀ k, k ∈ (by_category txs).map Prod.fst ↔
      ∃ tx, tx ∈ txs ∧ tx.type = Kind.expense ∧ catKey tx = k) ∧
    (∀ tx : TxRec, tx.category = none ∨ tx.category = some "" →
      catKey tx = "Uncategorized") := by
  refine ⟨rfl, List.sorted_insertionSort amtGe _, List.perm_insertionSort amtGe _,
    fun v => insertionSort_filter_amt v _, by_category_expense_only txs,
    by_category_amounts txs, fun k => mem_by_category_keys txs k, ?_⟩
  intro tx h
  unfold catKey
  rcases h with h | h <;> rw [h]
  rfl

/-- Witness for `c5_category_breakdown`: the group sum of the single expense
category in a two-transaction set. -/
theorem c5_category_breakdown_witness :
    (("Groceries", (300 : ℚ)) : String × ℚ).2 =
      ((([⟨⟨2024, 1, 15⟩, 1500, Kind.income, none, none⟩,
          ⟨⟨2024, 1, 20⟩, 300, Kind.expense, some "Groceries", none⟩] : List TxRec).filter
        (fun t => t.type == Kind.expense &&
          catKey t == (("Groceries", (300 : ℚ)) : String × ℚ).1)).map
            (fun t => t.amount)).sum :=
  (c5_category_breakdown
      [⟨⟨2024, 1, 15⟩, 1500, Kind.income, none, none⟩,
        ⟨⟨2024, 1, 20⟩, 300, Kind.expense, some "Groceries", none⟩]).2.2.2.2.2.1
    ("Groceries", 300) (by decide)

/-! ### Claim C1 -/

theorem filter_cons_pos' {α : Type} (p : α → Bool) {a : α} (l : List α) (h : p a = true) :
    (a :: l).filter p = a :: l.filter p :=
  List.filter_cons_of_pos h

theorem sortedMonthKeys_sorted (txs : List TxRec) :
    List.Sorted ymLe (sortedMonthKeys txs) :=
  List.sorted_insertionSort ymLe _

theorem sortedMonthKeys_nodup (txs : List TxRec) : (sortedMonthKeys txs).Nodup :=
  ((List.perm_insertionSort ymLe _).nodup_iff).mpr (List.nodup_dedup _)

theorem sortedMonthKeys_pairwise_lt (txs : List TxRec) :
    List.Pairwise ymLt (sortedMonthKeys txs) :=
  (List.Pairwise.and (sortedMonthKeys_sorted txs) (sortedMonthKeys_nodup txs)).imp
    (fun hab => ymLt_of_le_of_ne hab.1 hab.2)

theorem balanceTimeseries_eq (txs : List TxRec) (k : ℕ) :
    balanceTimeseries txs k =
      cumLoop txs
        ((((sortedMonthKeys txs).take ((sortedMonthKeys txs).length - k)).map
          (month_net txs)).sum)
        ((sortedMonthKeys txs).drop ((sortedMonthKeys txs).length - k)) := by
  simp only [balanceTimeseries]
  by_cases hc :
      ((sortedMonthKeys txs).drop ((sortedMonthKeys txs).length - k)).length = k
  · rw [if_pos hc]
  · rw [if_neg hc]
    have hld := List.length_drop ((sortedMonthKeys txs).length - k) (sortedMonthKeys txs)
    have hlen : (sortedMonthKeys txs).length - k = 0 := by omega
    rw [hlen, List.take_zero]

theorem cumLoop_head? (txs : List TxRec) (r : ℚ) (mm : Ym) (rest : List Ym) :
    (cumLoop txs r (mm :: rest)).head? = some (mm, round2 (r + month_net txs mm)) := rfl

theorem cumLoop_getLast? (txs : List TxRec) :
    ∀ (keys : List Ym) (r : ℚ),
      (cumLoop txs r keys).getLast? =
        keys.getLast?.map (fun mm => (mm, round2 (r + (keys.map (month_net txs)).sum)))
  | [], _ => rfl
  | [mm], r => by
    show some (mm, round2 (r + month_net txs mm)) =
      some (mm, round2 (r + ([mm].map (month_net txs)).sum))
    simp
  | mm :: b :: bs, r => by
    have ih := cumLoop_getLast? txs (b :: bs) (r + month_net txs mm)
    have hne : cumLoop txs (r + month_net txs mm) (b :: bs) ≠ [] := by
      show (b, _) :: _ ≠ []
      simp
    show ((mm, round2 (r + month_net txs mm)) ::
      cumLoop txs (r + month_net txs mm) (b :: bs)).getLast? = _
    rw [show ((mm, round2 (r + month_net txs mm)) ::
        cumLoop txs (r + month_net txs mm) (b :: bs)) =
        [(mm, round2 (r + month_net txs mm))] ++
          cumLoop txs (r + month_net txs mm) (b :: bs) from rfl,
      List.getLast?_append_of_ne_nil _ hne, ih, List.getLast?_cons_cons]
    have hsum : r + month_net txs mm + ((b :: bs).map (month_net txs)).sum =
        r + ((mm :: b :: bs).map (month_net txs)).sum := by
      simp only [List.map_cons, List.sum_cons]
      ring
    simp only [hsum, List.map_cons, List.sum_cons]
    ring_nf

theorem balanceTimeseries_last_total (txs : List TxRec) (k : ℕ) (hk : 1 ≤ k) :
    (balanceTimeseries txs k).getLast? =
      (sortedMonthKeys txs).getLast?.map
        (fun mm => (mm, round2 (((sortedMonthKeys txs).map (month_net txs)).sum))) := by
  rw [balanceTimeseries_eq, cumLoop_getLast?]
  have hdl : ((sortedMonthKeys txs).drop ((sortedMonthKeys txs).length - k)).getLast? =
      (sortedMonthKeys txs).getLast? := by
    cases hks : sortedMonthKeys txs with
    | nil => rw [List.drop_nil]
    | cons a l =>
      rw [← hks]
      have hne : (sortedMonthKeys txs).drop ((sortedMonthKeys txs).length - k) ≠ [] := by
        intro hcon
        have hlcon := congrArg List.length hcon
        rw [List.length_drop] at hlcon
        have hpos : 0 < (sortedMonthKeys txs).length := by
          rw [hks]
          simp
        simp only [List.length_nil] at hlcon
        omega
      conv_rhs => rw [← List.take_append_drop ((sortedMonthKeys txs).length - k)
        (sortedMonthKeys txs)]
      rw [List.getLast?_append_of_ne_nil _ hne]
  rw [hdl]
  have hsum : (((sortedMonthKeys txs).take ((sortedMonthKeys txs).length - k)).map
      (month_net txs)).sum +
      (((sortedMonthKeys txs).drop ((sortedMonthKeys txs).length - k)).map
        (month_net txs)).sum =
      ((sortedMonthKeys txs).map (month_net txs)).sum := by
    rw [← List.sum_append, ← List.map_append, List.take_append_drop]
  have hfun : (fun mm : Ym => (mm, round2
      ((((sortedMonthKeys txs).take ((sortedMonthKeys txs).length - k)).map
        (month_net txs)).sum +
        (((sortedMonthKeys txs).drop ((sortedMonthKeys txs).length - k)).map
          (month_net txs)).sum))) =
      (fun mm : Ym => (mm, round2 (((sortedMonthKeys txs).map (month_net txs)).sum))) := by
    funext mm
    rw [hsum]
  rw [hfun]

theorem filter_le_take :
    ∀ (ks : List Ym), List.Pairwise ymLt ks → ∀ (j : ℕ) (hj : j < ks.length),
      ks.filter (fun x => decide (ymLe x (ks.get ⟨j, hj⟩))) = ks.take (j + 1)
  | [], _, j, hj => absurd hj (by simp)
  | a :: l, hpw, 0, hj => by
    show (a :: l).filter (fun x => decide (ymLe x a)) = (a :: l).take (0 + 1)
    rw [filter_cons_pos' (fun x => decide (ymLe x a)) l (by simp [ymLe_refl])]
    have hfl : l.filter (fun x => decide (ymLe x a)) = [] := by
      rw [List.filter_eq_nil_iff]
      intro b hb
      have hlt : ymLt a b := List.rel_of_pairwise_cons hpw hb
      simp only [decide_eq_true_eq]
      exact not_ymLe_iff.mpr hlt
    rw [hfl]
    rfl
  | a :: l, hpw, j + 1, hj => by
    have hj' : j < l.length := by simpa using hj
    show (a :: l).filter (fun x => decide (ymLe x (l.get ⟨j, hj'⟩))) =
      (a :: l).take (j + 1 + 1)
    have hpred : (fun x => decide (ymLe x (l.get ⟨j, hj'⟩))) a = true := by
      have hmem : l.get ⟨j, hj'⟩ ∈ l := l.get_mem _ _
      have hlt := List.rel_of_pairwise_cons hpw hmem
      simp only [decide_eq_true_eq]
      exact (ymLt_iff_le_not_le.mp hlt).1
    rw [filter_cons_pos' (fun x => decide (ymLe x (l.get ⟨j, hj'⟩))) l hpred,
      filter_le_take l hpw.of_cons j hj']
    rfl

theorem balanceTimeseries_head_cumulative (txs : List TxRec) (k : ℕ) :
    ∀ first, (balanceTimeseries txs k).head? = some first →
      first.2 = round2 ((((sortedMonthKeys txs).filter
        (fun x => decide (ymLe x first.1))).map (month_net txs)).sum) := by
  intro first hf
  rw [balanceTimeseries_eq] at hf
  cases hd : (sortedMonthKeys txs).drop ((sortedMonthKeys txs).length - k) with
  | nil =>
    rw [hd] at hf
    exact absurd hf (by simp [cumLoop])
  | cons mm rest =>
    rw [hd, cumLoop_head?] at hf
    rw [Option.some.injEq] at hf
    have hjlt : (sortedMonthKeys txs).length - k < (sortedMonthKeys txs).length := by
      have hlcon := congrArg List.length hd
      rw [List.length_drop] at hlcon
      simp only [List.length_cons] at hlcon
      omega
    have hgeteq : (sortedMonthKeys txs).get ⟨(sortedMonthKeys txs).length - k, hjlt⟩ = mm := by
      have hdd := List.drop_eq_getElem_cons (l := sortedMonthKeys txs) hjlt
      rw [hd] at hdd
      rw [List.cons.injEq] at hdd
      rw [List.get_eq_getElem]
      exact hdd.1.symm
    subst hf
    simp only [← hgeteq]
    rw [filter_le_take _ (sortedMonthKeys_pairwise_lt txs) _ hjlt, List.take_succ,
      List.getElem?_eq_getElem hjlt]
    show round2 (_ + month_net txs _) = _
    rw [List.map_append, List.sum_append]
    simp

/-- C1: for every transaction set and window length `k` in `[1, 60]`, the
balance timeseries windowed to `k` months is a suffix of the lifetime
cumulative curve: the first reported balance is the (rounded) sum of the
monthly nets of every present month up to and including that month (the
pre-window nets being folded into the starting point), and the last element
of the `k`-month window equals the last element of the `(k+1)`-month
window. -/
theorem c1_timeseries_suffix (txs : List TxRec) (k : ℕ) (hk1 : 1 ≤ k) (hk2 : k ≤ 60) :
    (∀ first, (balanceTimeseries txs k).head? = some first →
      first.2 = round2 ((((sortedMonthKeys txs).filter
        (fun x => decide (ymLe x first.1))).map (month_net txs)).sum)) ∧
    (balanceTimeseries txs k).getLast? = (balanceTimeseries txs (k + 1)).getLast? := by
  refine ⟨balanceTimeseries_head_cumulative txs k, ?_⟩
  rw [balanceTimeseries_last_total txs k hk1,
    balanceTimeseries_last_total txs (k + 1) (by omega)]

/-- Witness for `c1_timeseries_suffix`: two transactions in different
months, window length 1 — the single shown month starts from the prior
month's net, and the window's last element agrees with the 2-month
window's. -/
theorem c1_timeseries_suffix_witness :
    ((⟨⟨2024, 3⟩, (1380 : ℚ)⟩ : Ym × ℚ).2 =
      round2 ((((sortedMonthKeys
        [⟨⟨2024, 1, 15⟩, 1500, Kind.income, none, none⟩,
          ⟨⟨2024, 3, 2⟩, 120, Kind.expense, none, none⟩]).filter
        (fun x => decide (ymLe x (⟨⟨2024, 3⟩, (1380 : ℚ)⟩ : Ym × ℚ).1))).map
          (month_net [⟨⟨2024, 1, 15⟩, 1500, Kind.income, none, none⟩,
            ⟨⟨2024, 3, 2⟩, 120, Kind.expense, none, none⟩])).sum)) ∧
    (balanceTimeseries [⟨⟨2024, 1, 15⟩, 1500, Kind.income, none, none⟩,
        ⟨⟨2024, 3, 2⟩, 120, Kind.expense, none, none⟩] 1).getLast? =
      (balanceTimeseries [⟨⟨2024, 1, 15⟩, 1500, Kind.income, none, none⟩,
        ⟨⟨2024, 3, 2⟩, 120, Kind.expense, none, none⟩] 2).getLast? :=
  ⟨(c1_timeseries_suffix
      [⟨⟨2024, 1, 15⟩, 1500, Kind.income, none, none⟩,
        ⟨⟨2024, 3, 2⟩, 120, Kind.expense, none, none⟩] 1 (by norm_num) (by norm_num)).1
      ⟨⟨2024, 3⟩, (1380 : ℚ)⟩ (by decide),
    (c1_timeseries_suffix
      [⟨⟨2024, 1, 15⟩, 1500, Kind.income, none, none⟩,
        ⟨⟨2024, 3, 2⟩, 120, Kind.expense, none, none⟩] 1 (by norm_num) (by norm_num)).2⟩

/-! ### Claim C4 -/

theorem daysInMonth_le (y m : ℕ) : daysInMonth y m ≤ 31 := by
  unfold daysInMonth
  split
  · omega
  · split
    · omega
    · split <;> omega

theorem validDate_props {dt : DateYmd} (h : validDate dt = true) :
    1 ≤ dt.y ∧ dt.y ≤ 9999 ∧ 1 ≤ dt.m ∧ dt.m ≤ 12 ∧ 1 ≤ dt.d ∧ dt.d ≤ 31 := by
  have hp := of_decide_eq_true h
  obtain ⟨h1, h2, h3, h4, h5, h6⟩ := hp
  exact ⟨h1, h2, h3, h4, h5, le_trans h6 (daysInMonth_le dt.y dt.m)⟩

theorem fmtDateChars_classify (dt : DateYmd) :
    ∀ c ∈ fmtDateChars dt, c ∈ digitList ∨ c = '-' := by
  intro c hc
  unfold fmtDateChars at hc
  rcases List.mem_append.mp hc with h1 | h2
  · exact Or.inl (pad4_mem_digitList _ c h1)
  · rcases List.mem_cons.mp h2 with rfl | h3
    · exact Or.inr rfl
    · rcases List.mem_append.mp h3 with h4 | h5
      · exact Or.inl (pad2_mem_digitList _ c h4)
      · rcases List.mem_cons.mp h5 with rfl | h6
        · exact Or.inr rfl
        · exact Or.inl (pad2_mem_digitList _ c h6)

theorem dash_not_mem_pad4 (n : ℕ) : '-' ∉ pad4 n := by
  intro hc
  exact (digitList_facts (pad4_mem_digitList n '-' hc)).2.1 rfl

theorem dash_not_mem_pad2 (n : ℕ) : '-' ∉ pad2 n := by
  intro hc
  exact (digitList_facts (pad2_mem_digitList n '-' hc)).2.1 rfl

theorem dot_not_mem_natDigits (n : ℕ) : '.' ∉ natDigits n := by
  intro hc
  exact (digitList_facts (natDigits_mem_digitList n '.' hc)).2.2.2.2.1 rfl

theorem dot_not_mem_pad2 (n : ℕ) : '.' ∉ pad2 n := by
  intro hc
  exact (digitList_facts (pad2_mem_digitList n '.' hc)).2.2.2.2.1 rfl

theorem digit_isDigit_of_mem {c : Char} (h : c ∈ digitList) : c.isDigit = true :=
  (digitList_facts h).2.2.2.2.2.2

theorem splitSign_cons (c : Char) (rest : List Char) :
    splitSign (c :: rest) =
      if c = '-' then (-1, rest) else if c = '+' then (1, rest) else (1, c :: rest) := rfl

theorem parse_date_iso {dt : DateYmd} (h : validDate dt = true) :
    parse_date (String.mk (fmtDateChars dt)) = some dt := by
  obtain ⟨hy1, hy2, hm1, hm2, hd1, hd2⟩ := validDate_props h
  have hsplit : splitOnChar '-' (fmtDateChars dt) = [pad4 dt.y, pad2 dt.m, pad2 dt.d] := by
    unfold fmtDateChars
    rw [splitOnChar_append (dash_not_mem_pad4 dt.y),
      splitOnChar_append (dash_not_mem_pad2 dt.m),
      splitOnChar_of_not_mem (dash_not_mem_pad2 dt.d)]
  have hymd : parseYmdChars (fmtDateChars dt) = some dt := by
    unfold parseYmdChars
    rw [hsplit]
    split
    · rename_i ys ms ds heq
      rw [List.cons.injEq, List.cons.injEq, List.cons.injEq] at heq
      obtain ⟨hys, hms, hds, -⟩ := heq
      subst hys
      subst hms
      subst hds
      rw [if_pos ⟨pad4_ne_nil dt.y, pad4_length_le hy2,
        fun c hc => digit_isDigit_of_mem (pad4_mem_digitList dt.y c hc),
        pad2_ne_nil dt.m, pad2_length_le (by omega),
        fun c hc => digit_isDigit_of_mem (pad2_mem_digitList dt.m c hc),
        pad2_ne_nil dt.d, pad2_length_le (by omega),
        fun c hc => digit_isDigit_of_mem (pad2_mem_digitList dt.d c hc)⟩]
      rw [digitsVal_pad4, digitsVal_pad2, digitsVal_pad2]
      unfold mkValidDate
      have heta : (⟨dt.y, dt.m, dt.d⟩ : DateYmd) = dt := by cases dt; rfl
      rw [heta, if_pos h]
    · rename_i hcon
      exact absurd rfl (hcon (pad4 dt.y) (pad2 dt.m) (pad2 dt.d))
  simp only [parse_date]
  rw [show (String.mk (fmtDateChars dt)).toList = fmtDateChars dt from rfl]
  rw [trimChars_eq_self (fun c hc => by
    rcases fmtDateChars_classify dt c hc with hd | rfl
    · exact (digitList_facts hd).1
    · rfl)]
  rw [hymd]

theorem fmtAmountChars_classify (a : ℚ) :
    ∀ c ∈ fmtAmountChars a, c ∈ digitList ∨ c = '-' ∨ c = '.' := by
  intro c hc
  unfold fmtAmountChars at hc
  rcases List.mem_append.mp hc with h1 | h2
  · rcases List.mem_append.mp h1 with h3 | h4
    · split at h3
      · rcases List.mem_singleton.mp h3 with rfl
        exact Or.inr (Or.inl rfl)
      · cases h3
    · exact Or.inl (natDigits_mem_digitList _ c h4)
  · rcases List.mem_cons.mp h2 with rfl | h5
    · exact Or.inr (Or.inr rfl)
    · exact Or.inl (pad2_mem_digitList _ c h5)

theorem splitSign_fmtAmount (a : ℚ) :
    splitOnChar '.' (splitSign (fmtAmountChars a)).2 =
      [natDigits ((round (a * 100)).natAbs / 100), pad2 ((round (a * 100)).natAbs % 100)] := by
  have hsplit : splitOnChar '.'
      (natDigits ((round (a * 100)).natAbs / 100) ++
        '.' :: pad2 ((round (a * 100)).natAbs % 100)) =
      [natDigits ((round (a * 100)).natAbs / 100), pad2 ((round (a * 100)).natAbs % 100)] := by
    rw [splitOnChar_append (dot_not_mem_natDigits _), splitOnChar_of_not_mem (dot_not_mem_pad2 _)]
  have hdef : fmtAmountChars a =
      ((if round (a * 100) < 0 then ['-'] else []) ++
        natDigits ((round (a * 100)).natAbs / 100)) ++
          '.' :: pad2 ((round (a * 100)).natAbs % 100) := rfl
  by_cases hneg : round (a * 100) < 0
  · rw [hdef, if_pos hneg, List.singleton_append, List.cons_append, splitSign_cons, if_pos rfl]
    exact hsplit
  · rw [hdef, if_neg hneg, List.nil_append]
    obtain ⟨c, cs', hcons⟩ :=
      List.exists_cons_of_ne_nil (natDigits_ne_nil ((round (a * 100)).natAbs / 100))
    have hcd : c ∈ digitList := by
      have hcm : c ∈ natDigits ((round (a * 100)).natAbs / 100) := by
        rw [hcons]
        exact List.mem_cons_self _ _
      exact natDigits_mem_digitList _ c hcm
    rw [hcons, List.cons_append, splitSign_cons,
      if_neg (digitList_facts hcd).2.1, if_neg (digitList_facts hcd).2.2.1]
    rw [← List.cons_append, ← hcons]
    exact hsplit

theorem parseFloat_fmtAmount (a : ℚ) : (parseFloatChars (fmtAmountChars a)).isSome = true := by
  unfold parseFloatChars
  rw [splitSign_fmtAmount]
  split
  · rename_i ip heq
    exact absurd heq (by simp)
  · rename_i ip fp heq
    rw [List.cons.injEq, List.cons.injEq] at heq
    obtain ⟨h1, h2, -⟩ := heq
    subst h1
    subst h2
    rw [if_pos ⟨by simp [natDigits_ne_nil], fun c hc => by
      rcases List.mem_append.mp hc with hc1 | hc2
      · exact digit_isDigit_of_mem (natDigits_mem_digitList _ c hc1)
      · exact digit_isDigit_of_mem (pad2_mem_digitList _ c hc2)⟩]
    rfl
  · rename_i hcon
    exact absurd rfl (hcon (natDigits ((round (a * 100)).natAbs / 100))
      (pad2 ((round (a * 100)).natAbs % 100)))

theorem strMk_ne_empty_of_ne_nil {cs : List Char} (h : cs ≠ []) : String.mk cs ≠ "" := by
  intro hcon
  exact h (congrArg String.toList hcon)

theorem fmtDateChars_ne_nil (dt : DateYmd) : fmtDateChars dt ≠ [] := by
  intro hcon
  unfold fmtDateChars at hcon
  exact pad4_ne_nil dt.y (List.append_eq_nil.mp hcon).1

theorem fmtAmountChars_ne_nil (a : ℚ) : fmtAmountChars a ≠ [] := by
  intro hcon
  have hdef : fmtAmountChars a =
      ((if round (a * 100) < 0 then ['-'] else []) ++
        natDigits ((round (a * 100)).natAbs / 100)) ++
          '.' :: pad2 ((round (a * 100)).natAbs % 100) := rfl
  rw [hdef] at hcon
  have := (List.append_eq_nil.mp hcon).2
  cases this

theorem processRow_isSome_of (c : Cols) (r : List String) (ds : String) (dt : DateYmd)
    (a : ℚ) (ti : Bool)
    (h1 : c.dateC.bind (fun i => r.get? i) = some ds)
    (h2 : ¬ ds = "")
    (h3 : parse_date ds = some dt)
    (h4 : resolveAmt c r = some a)
    (h5 : typeIncomeFlag c r = some ti) :
    (processRow c r).isSome = true := by
  unfold processRow
  rw [h1]
  simp [h2, h3, h4, h5]

theorem resolveAmt_exportRow (tx : TxRec) :
    resolveAmt ⟨some 0, some 3, none, none, some 1, some 2, none⟩ (exportRow tx) =
      parseFloatChars (fmtAmountChars tx.amount) := by
  have hne : ¬ (String.mk (fmtAmountChars tx.amount)) = "" :=
    strMk_ne_empty_of_ne_nil (fmtAmountChars_ne_nil tx.amount)
  show (if ¬ (String.mk (fmtAmountChars tx.amount)) = "" then
      pyFloat (String.mk (stripCommas (String.mk (fmtAmountChars tx.amount)).toList))
    else fallbackAmt ⟨some 0, some 3, none, none, some 1, some 2, none⟩ (exportRow tx)) = _
  rw [if_pos hne]
  unfold pyFloat
  rw [show (String.mk (stripCommas (String.mk (fmtAmountChars tx.amount)).toList)).toList =
    stripCommas (fmtAmountChars tx.amount) from rfl]
  rw [stripCommas_eq_self (fun c hc => by
    rcases fmtAmountChars_classify tx.amount c hc with hd | rfl | rfl
    · exact (digitList_facts hd).2.2.2.1
    · decide
    · decide)]
  rw [trimChars_eq_self (fun c hc => by
    rcases fmtAmountChars_classify tx.amount c hc with hd | rfl | rfl
    · exact (digitList_facts hd).1
    · rfl
    · rfl)]

theorem processRow_exportRow {tx : TxRec} (h : validDate tx.date = true) :
    (processRow ⟨some 0, some 3, none, none, some 1, some 2, none⟩
      (exportRow tx)).isSome = true := by
  obtain ⟨a, ha⟩ := Option.isSome_iff_exists.mp (parseFloat_fmtAmount tx.amount)
  exact processRow_isSome_of _ _ (String.mk (fmtDateChars tx.date)) tx.date a
    (containsSub "income".toList (lowerChars (kindStr tx.type).toList))
    rfl (strMk_ne_empty_of_ne_nil (fmtDateChars_ne_nil tx.date)) (parse_date_iso h)
    ((resolveAmt_exportRow tx).trans ha) rfl

theorem importCsv_export_eq (txs : List TxRec) :
    importCsv (exportRows txs) =
      processRows ⟨some 0, some 3, none, none, some 1, some 2, none⟩ (txs.map exportRow) :=
  rfl

/-- C4: exporting any list of stored transactions to CSV (header row
`date,type,category,amount,notes`, ISO dates, two-decimal amounts, empty
cells for missing category/notes) and re-importing the resulting rows
yields `imported = N`: every exported record converts back into a
transaction row. -/
theorem c4_csv_round_trip (txs : List TxRec) (h : ∀ tx ∈ txs, validDate tx.date = true) :
    (importCsv (exportRows txs)).1 = txs.length := by
  rw [importCsv_export_eq, processRows_spec]
  show (txs.map exportRow).countP _ = txs.length
  have hall : (txs.map exportRow).countP
      (fun r => (processRow ⟨some 0, some 3, none, none, some 1, some 2, none⟩ r).isSome) =
      (txs.map exportRow).length :=
    List.countP_eq_length.mpr (fun r hr => by
      rcases List.mem_map.mp hr with ⟨tx, htx, rfl⟩
      exact processRow_exportRow (h tx htx))
  rw [hall, List.length_map]

/-- Witness for `c4_csv_round_trip`: a two-transaction store round-trips
with `imported = 2`. -/
theorem c4_csv_round_trip_witness :
    (importCsv (exportRows
      [⟨⟨2024, 1, 15⟩, 1500, Kind.income, none, none⟩,
        ⟨⟨2024, 2, 29⟩, 300, Kind.expense, some "Groceries", some "weekly"⟩])).1 = 2 :=
  c4_csv_round_trip
    [⟨⟨2024, 1, 15⟩, 1500, Kind.income, none, none⟩,
      ⟨⟨2024, 2, 29⟩, 300, Kind.expense, some "Groceries", some "weekly"⟩]
    (by decide)

/-- Witness for `c9_baseline_series`: the repeated-value property at a
concrete horizon point. -/
theorem c9_baseline_series_witness :
    ((⟨2024, 1⟩, round2 100) : Ym × ℚ).2 = round2 100 :=
  (c9_baseline_series 100 ⟨2024, 1⟩ 2 []).2.2.2 (⟨2024, 1⟩, round2 100) (by decide)
